import Mathlib

/-!
Verification of the simple-redis repository: a shallow embedding of the RESP
codec (src/resp), the backend store (src/backend/mod.rs), the command layer
(src/cmd) and the connection codec (src/network.rs), with theorems settling
the frozen claims about the specification.

Modelling conventions:
- Byte buffers (`BytesMut`, `Vec<u8>`, `&[u8]`) are `List Nat`, each element a
  byte value < 256 by construction.  Rust `String` values are modelled as their
  UTF-8 byte lists; `String::from_utf8_lossy` is modelled as the identity,
  which is exact on valid UTF-8 input — every input reaching it in the theorems
  below (ASCII digit bodies, bodies of frames produced by the encoder) is of
  that shape.
- A Rust `fn decode(buf: &mut BytesMut) -> Result<T, RespError>` becomes a
  function `Bytes → DecRes T`: `DecRes.ok v rest` is `Ok(v)` with `rest` the
  buffer contents after the call, and `DecRes.err e rest` is `Err(e)` with
  `rest` the buffer contents after the call (the source sometimes consumes
  bytes before failing; the model preserves that).
- `RespError`'s diagnostic payloads (format strings) are dropped; only the
  variant (the error kind) is kept, which is all the claims speak about.
- Rust `f64` formatting and parsing (shortest-roundtrip decimal rendering) is
  floating-point specific and outside the embedding.  The `Double` frame
  payload is therefore carried at wire level (the already-rendered numeral
  body), and the double *encoder* is additionally modelled at the format level
  over `ℚ` (`f64EncodeForm` below), where the branch condition of the source —
  exact IEEE comparisons against the constants `1e+8` and `1e-8` — is an exact
  rational comparison.
- The recursive frame decoder is defined with an explicit recursion budget
  (`fuel`), decremented at each nested-frame decoding step; the top-level
  entry point `respFrameDecode` supplies `buf.length + 1`, which always
  suffices because entering a nested level consumes at least three bytes of
  header.  All lemmas are insensitive to this: exhausted fuel yields
  `NotComplete` with the buffer untouched, exactly the shape the propagation
  lemmas account for.
-/

/-! ## Bytes and numerals -/

abbrev Bytes := List Nat

def crlf : Bytes := [13, 10]

/-- Decimal rendering of a natural number (Rust `format!` of an unsigned
integer), via an explicit budget so that the definition is structural. -/
def natToDecAux : Nat → Nat → Bytes
  | 0, _ => []
  | fuel + 1, n => if n < 10 then [48 + n] else natToDecAux fuel (n / 10) ++ [48 + n % 10]

def natToDec (n : Nat) : Bytes := natToDecAux (n + 1) n

/-- Decimal rendering of an `i64` (Rust `Display`): a minus sign for negative
values, digits otherwise. -/
def intDisplay (i : Int) : Bytes :=
  if i < 0 then 45 :: natToDec i.natAbs else natToDec i.toNat

def isDigitByte (b : Nat) : Bool := 48 ≤ b && b ≤ 57

def digitsToNat (ds : Bytes) : Nat := ds.foldl (fun a d => 10 * a + (d - 48)) 0

/-- Digit-string parsing: all bytes ASCII digits and at least one of them. -/
def digitsVal? (ds : Bytes) : Option Nat :=
  if ds.isEmpty then none
  else if ds.all isDigitByte then some (digitsToNat ds) else none

/-- Rust integer literal syntax: an optional leading `+` or `-` sign followed
by at least one ASCII digit. -/
def parseNumeral? (b : Bytes) : Option Int :=
  match b with
  | 43 :: rest => (digitsVal? rest).map (fun n => (n : Int))
  | 45 :: rest => (digitsVal? rest).map (fun n => -(n : Int))
  | _ => (digitsVal? b).map (fun n => (n : Int))

def i64Min : Int := -(2 ^ 63)

def i64Max : Int := 2 ^ 63 - 1

/-- Rust `str::parse` into a bounded signed integer type: the numeral must be
well formed and its value must fit the range (Rust's step-by-step checked
arithmetic overflows exactly when the final value is out of range, because a
digit string's value grows monotonically). -/
def parseIntBounded (lo hi : Int) (b : Bytes) : Option Int :=
  match parseNumeral? b with
  | some v => if lo ≤ v ∧ v ≤ hi then some v else none
  | none => none

/-- `str::parse::<i64>`. -/
def parseI64 (b : Bytes) : Option Int := parseIntBounded i64Min i64Max b

/-- `str::parse::<isize>` on the 64-bit targets the repository builds for. -/
def parseIsize (b : Bytes) : Option Int := parseIntBounded i64Min i64Max b

/-! ## Error and result types (src/resp/mod.rs) -/

/-- The kinds of `RespError`; diagnostic payloads are dropped. -/
inductive RespError : Type where
  | InvalidFrame
  | InvalidFrameType
  | InvalidFrameLength
  | NotComplete
  | ParseIntError
  | ParseFloatError
  deriving DecidableEq, Repr

/-- Result of a decoding call on a mutable buffer: the outcome together with
the buffer contents after the call. -/
inductive DecRes (α : Type) : Type where
  | ok (val : α) (rest : Bytes)
  | err (e : RespError) (rest : Bytes)
  deriving Repr

/-! ## The frame model (src/resp/frame.rs)

`RespFrame` as declared in src/resp/frame.rs: twelve variants, with
`BulkString` and `Array` carrying the `Option` payloads of
src/resp/bulk_string.rs and src/resp/array.rs, and the dedicated
null-placeholder variants `NullBulkString` and `NullArray` (unit structs
`RespNullBulkString` / `RespNullArray`).  `Map` is a `BTreeMap<String, _>`,
modelled as its ascending-by-key entry list. -/
inductive RespFrame : Type where
  | SimpleString (s : Bytes)
  | Error (s : Bytes)
  | Integer (i : Int)
  | BulkString (b : Option Bytes)
  | NullBulkString
  | Array (a : Option (List RespFrame))
  | NullArray
  | Null
  | Boolean (b : Bool)
  | Double (body : Bytes)
  | Map (m : List (Bytes × RespFrame))
  | Set (s : List RespFrame)

/-! ## Decoder helpers (src/resp/mod.rs) -/

/-- `extract_fixed_data`: expect a literal byte string; too little input is
`NotComplete`, a mismatch `InvalidFrameType`, otherwise the bytes are
consumed. -/
def extractFixedData (buf expect : Bytes) : DecRes Unit :=
  if buf.length < expect.length then .err .NotComplete buf
  else if expect.isPrefixOf buf then .ok () (buf.drop expect.length)
  else .err .InvalidFrameType buf

/-- `find_crlf`: index of the `nth` CR-LF pair, scanning left to right (a
CR as the very last byte has no successor and is not a pair). -/
def findCrlfAux : Bytes → Nat → Nat → Option Nat
  | [], _, _ => none
  | [_], _, _ => none
  | a :: b :: rest, nth, i =>
      if a = 13 ∧ b = 10 then
        if nth = 1 then some i else findCrlfAux (b :: rest) (nth - 1) (i + 1)
      else findCrlfAux (b :: rest) nth (i + 1)

def findCrlf (buf : Bytes) (nth : Nat) : Option Nat := findCrlfAux buf nth 0

/-- `extract_simple_frame_data`: check the tag byte and locate the `nth`
CR-LF; the buffer is not advanced (the caller splits).  Returns the index of
the CR. -/
def extractSimpleFrameData (buf pre : Bytes) (nth : Nat) : Except RespError Nat :=
  if buf.length < 3 then .error .NotComplete
  else if ¬ pre.isPrefixOf buf then .error .InvalidFrameType
  else
    match findCrlf buf nth with
    | none => .error .NotComplete
    | some e => if e = 0 then .error .NotComplete else .ok e

/-- `parse_length`: locate the first CR-LF and parse the bytes between the tag
and it as an `isize`. -/
def parseLength (buf pre : Bytes) : Except RespError (Nat × Int) :=
  match extractSimpleFrameData buf pre 1 with
  | .error e => .error e
  | .ok e =>
      match parseIsize ((buf.take e).drop pre.length) with
      | some n => .ok (e, n)
      | none => .error .ParseIntError

/-! ## Per-variant decoders (src/resp) -/

/-- `SimpleString::decode` (src/resp/simple_string.rs). -/
def simpleStringDecode (buf : Bytes) : DecRes Bytes :=
  match extractSimpleFrameData buf [43] 1 with
  | .error e => .err e buf
  | .ok e => .ok ((buf.take e).drop 1) (buf.drop (e + 2))

/-- `SimpleError::decode` (src/resp/simple_error.rs). -/
def simpleErrorDecode (buf : Bytes) : DecRes Bytes :=
  match extractSimpleFrameData buf [45] 1 with
  | .error e => .err e buf
  | .ok e => .ok ((buf.take e).drop 1) (buf.drop (e + 2))

/-- `i64::decode` (src/resp/integer.rs): the buffer is split *before* the
parse, so a parse failure still consumes the frame's bytes. -/
def i64Decode (buf : Bytes) : DecRes Int :=
  match extractSimpleFrameData buf [58] 1 with
  | .error e => .err e buf
  | .ok e =>
      match parseI64 ((buf.take e).drop 1) with
      | some v => .ok v (buf.drop (e + 2))
      | none => .err .ParseIntError (buf.drop (e + 2))

/-- `f64::decode` (src/resp/double.rs), at wire level: the numeral body (the
bytes between the tag and CR-LF) stands for the parsed double.  The
floating-point parse itself is outside the embedding; no theorem below
exercises this branch. -/
def f64Decode (buf : Bytes) : DecRes Bytes :=
  match extractSimpleFrameData buf [44] 1 with
  | .error e => .err e buf
  | .ok e => .ok ((buf.take e).drop 1) (buf.drop (e + 2))

/-- `bool::decode` (src/resp/bool.rs): note that *any* failure of the second
fixed-data attempt — including `NotComplete` on a short buffer — is turned
into `InvalidFrameType`. -/
def boolDecode (buf : Bytes) : DecRes Bool :=
  match extractFixedData buf [35, 116, 13, 10] with
  | .ok _ rest => .ok true rest
  | .err _ _ =>
      match extractFixedData buf [35, 102, 13, 10] with
      | .ok _ rest => .ok false rest
      | .err _ _ => .err .InvalidFrameType buf

/-- `RespNull::decode` (src/resp/null.rs). -/
def respNullDecode (buf : Bytes) : DecRes Unit := extractFixedData buf [95, 13, 10]

/-- `RespNullBulkString::decode` (src/resp/decode.rs). -/
def respNullBulkStringDecode (buf : Bytes) : DecRes Unit :=
  extractFixedData buf [36, 45, 49, 13, 10]

/-- `RespNullArray::decode` (src/resp/decode.rs). -/
def respNullArrayDecode (buf : Bytes) : DecRes Unit :=
  extractFixedData buf [42, 45, 49, 13, 10]

/-- `BulkString::decode` (src/resp/bulk_string.rs): try the `$-1\r\n` null
sentinel, then locate the second CR-LF, split the candidate frame off the
buffer, parse the length, reject negatives, and check the body length. -/
def bulkStringDecode (buf : Bytes) : DecRes (Option Bytes) :=
  match extractFixedData buf [36, 45, 49, 13, 10] with
  | .ok _ rest => .ok none rest
  | .err _ _ =>
      match extractSimpleFrameData buf [36] 2 with
      | .error e => .err e buf
      | .ok e =>
          let data := buf.take (e + 2)
          let buf' := buf.drop (e + 2)
          match parseLength data [36] with
          | .error e2 => .err e2 buf'
          | .ok (e2, len) =>
              if len < 0 then .err .InvalidFrame buf'
              else
                let lenN := len.toNat
                let data2 := data.drop (e2 + 2)
                if data2.length ≠ lenN + 2 then .err .NotComplete buf'
                else .ok (some (data2.take lenN)) buf'

/-- Sorted-insertion order on byte strings: Rust `String` ordering is
lexicographic on the UTF-8 bytes. -/
def bytesLt : Bytes → Bytes → Bool
  | [], [] => false
  | [], _ :: _ => true
  | _ :: _, [] => false
  | a :: as, b :: bs => if a < b then true else if b < a then false else bytesLt as bs

/-- `BTreeMap::insert` on the ascending entry-list representation: replace an
equal key, otherwise keep ascending order. -/
def mapInsert (k : Bytes) (v : RespFrame) : List (Bytes × RespFrame) → List (Bytes × RespFrame)
  | [] => [(k, v)]
  | (k', v') :: rest =>
      if bytesLt k k' then (k, v) :: (k', v') :: rest
      else if k = k' then (k, v) :: rest
      else (k', v') :: mapInsert k v rest

/-- The `for _ in 0..len` child loop of `RespArray::decode` / `RespSet::decode`,
over the cloned buffer: an emptiness check precedes each child decode.  The
child decoder is a parameter (it will be the frame decoder at one less fuel). -/
def decodeItems (dc : Bytes → DecRes RespFrame) : Nat → Bytes → DecRes (List RespFrame)
  | 0, buf => .ok [] buf
  | n + 1, buf =>
      if buf.isEmpty then .err .NotComplete buf
      else
        match dc buf with
        | .err e rest => .err e rest
        | .ok f rest =>
            match decodeItems dc n rest with
            | .err e r => .err e r
            | .ok fs r => .ok (f :: fs) r

/-- The entry loop of `RespMap::decode`: emptiness check, a `SimpleString`
key, emptiness check, a value frame, inserted into the accumulated map. -/
def decodeEntries (dc : Bytes → DecRes RespFrame) :
    Nat → Bytes → List (Bytes × RespFrame) → DecRes (List (Bytes × RespFrame))
  | 0, buf, acc => .ok acc buf
  | n + 1, buf, acc =>
      if buf.isEmpty then .err .NotComplete buf
      else
        match simpleStringDecode buf with
        | .err e rest => .err e rest
        | .ok k rest =>
            if rest.isEmpty then .err .NotComplete rest
            else
              match dc rest with
              | .err e r => .err e r
              | .ok v rest2 => decodeEntries dc n rest2 (mapInsert k v acc)

/-- `RespArray::decode` (src/resp/array.rs): `*-1\r\n` sentinel, then length
parse with a negativity check, then the children against the cloned buffer;
on any child error the original buffer is left untouched. -/
def respArrayDecode (dc : Bytes → DecRes RespFrame) (buf : Bytes) :
    DecRes (Option (List RespFrame)) :=
  match extractFixedData buf [42, 45, 49, 13, 10] with
  | .ok _ rest => .ok none rest
  | .err _ _ =>
      match parseLength buf [42] with
      | .error e => .err e buf
      | .ok (e, len) =>
          if len < 0 then .err .InvalidFrame buf
          else
            match decodeItems dc len.toNat (buf.drop (e + 2)) with
            | .err e2 _ => .err e2 buf
            | .ok fs rest => .ok (some fs) rest

/-- `RespMap::decode` (src/resp/map.rs): length parse — with *no* negativity
check; `for _ in 0..len` iterates zero times for a negative `len`, hence
`Int.toNat` — then the keyed entries against the cloned buffer. -/
def respMapDecode (dc : Bytes → DecRes RespFrame) (buf : Bytes) :
    DecRes (List (Bytes × RespFrame)) :=
  match parseLength buf [37] with
  | .error e => .err e buf
  | .ok (e, len) =>
      match decodeEntries dc len.toNat (buf.drop (e + 2)) [] with
      | .err e2 _ => .err e2 buf
      | .ok m rest => .ok m rest

/-- `RespSet::decode` (src/resp/set.rs): like the array but with no null
sentinel and — like the map — no negativity check on the parsed length. -/
def respSetDecode (dc : Bytes → DecRes RespFrame) (buf : Bytes) :
    DecRes (List RespFrame) :=
  match parseLength buf [126] with
  | .error e => .err e buf
  | .ok (e, len) =>
      match decodeItems dc len.toNat (buf.drop (e + 2)) with
      | .err e2 _ => .err e2 buf
      | .ok fs rest => .ok fs rest

/-- `RespFrame::decode` (src/resp/frame.rs): peek the tag byte and dispatch;
`$` and `*` first try the dedicated null decoders and fall through to the
general ones on *any* error; an empty buffer is `NotComplete`; an unknown tag
is `InvalidFrameType`.  `fuel` is the recursion budget (see the header
comment). -/
def decodeF : Nat → Bytes → DecRes RespFrame
  | 0, buf => .err .NotComplete buf
  | fuel + 1, buf =>
      match buf.head? with
      | none => .err .NotComplete buf
      | some 43 =>
          match simpleStringDecode buf with
          | .ok s rest => .ok (.SimpleString s) rest
          | .err e rest => .err e rest
      | some 45 =>
          match simpleErrorDecode buf with
          | .ok s rest => .ok (.Error s) rest
          | .err e rest => .err e rest
      | some 58 =>
          match i64Decode buf with
          | .ok i rest => .ok (.Integer i) rest
          | .err e rest => .err e rest
      | some 36 =>
          match respNullBulkStringDecode buf with
          | .ok _ rest => .ok .NullBulkString rest
          | .err _ _ =>
              match bulkStringDecode buf with
              | .ok b rest => .ok (.BulkString b) rest
              | .err e rest => .err e rest
      | some 42 =>
          match respNullArrayDecode buf with
          | .ok _ rest => .ok .NullArray rest
          | .err _ _ =>
              match respArrayDecode (decodeF fuel) buf with
              | .ok a rest => .ok (.Array a) rest
              | .err e rest => .err e rest
      | some 95 =>
          match respNullDecode buf with
          | .ok _ rest => .ok .Null rest
          | .err e rest => .err e rest
      | some 35 =>
          match boolDecode buf with
          | .ok b rest => .ok (.Boolean b) rest
          | .err e rest => .err e rest
      | some 44 =>
          match f64Decode buf with
          | .ok d rest => .ok (.Double d) rest
          | .err e rest => .err e rest
      | some 37 =>
          match respMapDecode (decodeF fuel) buf with
          | .ok m rest => .ok (.Map m) rest
          | .err e rest => .err e rest
      | some 126 =>
          match respSetDecode (decodeF fuel) buf with
          | .ok s rest => .ok (.Set s) rest
          | .err e rest => .err e rest
      | some _ => .err .InvalidFrameType buf

/-- The frame decoder as called by the connection layer: the budget
`buf.length + 1` always suffices, because each nesting level consumes at
least three bytes of aggregate header before recursing. -/
def respFrameDecode (buf : Bytes) : DecRes RespFrame := decodeF (buf.length + 1) buf

/-! ## The encoder (src/resp, per-variant `RespEncode` impls) -/

mutual

/-- `RespFrame::encode` via `enum_dispatch`: the per-variant `RespEncode`
implementations of src/resp (integers with an explicit `+` for non-negatives;
`$-1\r\n`, `*-1\r\n`, `_\r\n` for the null forms; aggregates emit their length
then their children, the map in its stored — ascending-key — order). -/
def encodeFrame : RespFrame → Bytes
  | .SimpleString s => 43 :: s ++ crlf
  | .Error s => 45 :: s ++ crlf
  | .Integer i => 58 :: (if i < 0 then [] else [43]) ++ intDisplay i ++ crlf
  | .BulkString (some d) => 36 :: natToDec d.length ++ crlf ++ d ++ crlf
  | .BulkString none => [36, 45, 49, 13, 10]
  | .NullBulkString => [36, 45, 49, 13, 10]
  | .Array (some l) => 42 :: natToDec l.length ++ crlf ++ encodeFrameList l
  | .Array none => [42, 45, 49, 13, 10]
  | .NullArray => [42, 45, 49, 13, 10]
  | .Null => [95, 13, 10]
  | .Boolean b => [35, if b then 116 else 102, 13, 10]
  | .Double body => 44 :: body ++ crlf
  | .Map m => 37 :: natToDec m.length ++ crlf ++ encodeEntryList m
  | .Set s => 126 :: natToDec s.length ++ crlf ++ encodeFrameList s

/-- Concatenated encodings of a frame sequence (the aggregate-body loops). -/
def encodeFrameList : List RespFrame → Bytes
  | [] => []
  | f :: fs => encodeFrame f ++ encodeFrameList fs

/-- Concatenated encodings of map entries: each key as a `SimpleString`, then
the value frame. -/
def encodeEntryList : List (Bytes × RespFrame) → Bytes
  | [] => []
  | (k, v) :: rest => (43 :: k ++ crlf) ++ encodeFrame v ++ encodeEntryList rest

end

/-! ## The backend store (src/backend/mod.rs)

`BackendInner` holds three separate concurrent maps: `map` (the plain
key-value store), `hmap` (hashes) and `hset` (sets).  The claims are about
the sequential semantics of single operations, so each `DashMap` is modelled
as an association list with unique keys (lookup takes the first match;
insertion replaces in place or appends), and each `DashSet` as a membership
list. -/

def assocGet {α : Type} : List (Bytes × α) → Bytes → Option α
  | [], _ => none
  | (k', v) :: rest, k => if k = k' then some v else assocGet rest k

def assocPut {α : Type} : List (Bytes × α) → Bytes → α → List (Bytes × α)
  | [], k, v => [(k, v)]
  | (k', v') :: rest, k, v =>
      if k = k' then (k, v) :: rest else (k', v') :: assocPut rest k v

structure Backend : Type where
  map : List (Bytes × RespFrame)
  hmap : List (Bytes × List (Bytes × RespFrame))
  hset : List (Bytes × List Bytes)

/-- `Backend::new` — all three stores empty. -/
def backendNew : Backend := ⟨[], [], []⟩

/-- `Backend::get`. -/
def backendGet (st : Backend) (key : Bytes) : Option RespFrame := assocGet st.map key

/-- `Backend::set` — unconditional insert. -/
def backendSet (st : Backend) (key : Bytes) (value : RespFrame) : Backend :=
  { st with map := assocPut st.map key value }

/-- `Backend::hget` — absent if the key or the field is missing. -/
def backendHGet (st : Backend) (key field : Bytes) : Option RespFrame :=
  (assocGet st.hmap key).bind (fun m => assocGet m field)

/-- `Backend::hset` — `entry(key).or_default()` then insert the field. -/
def backendHSet (st : Backend) (key field : Bytes) (value : RespFrame) : Backend :=
  { st with hmap := assocPut st.hmap key (assocPut ((assocGet st.hmap key).getD []) field value) }

/-- `Backend::hgetall` — a snapshot of the inner map, or absent. -/
def backendHGetAll (st : Backend) (key : Bytes) : Option (List (Bytes × RespFrame)) :=
  assocGet st.hmap key

/-- `Backend::sadd` — `entry(key).or_default()`, then 0 if the member is
already present, else insert it and return 1.  Note that the entry call
materialises the (possibly empty) member set in either case. -/
def backendSAdd (st : Backend) (key member : Bytes) : Nat × Backend :=
  let inner := (assocGet st.hset key).getD []
  if member ∈ inner then (0, { st with hset := assocPut st.hset key inner })
  else (1, { st with hset := assocPut st.hset key (member :: inner) })

/-- `Backend::sismember`. -/
def backendSIsMember (st : Backend) (key member : Bytes) : Bool :=
  ((assocGet st.hset key).map (fun s => decide (member ∈ s))).getD false

/-! ## Command executors (src/cmd) -/

/-- `SAdd::execute` (src/cmd/hset.rs): run `sadd` for each member in order,
summing the returned 0/1 counts into an `i64`, and reply with that Integer.
The executor returns the reply frame together with the backend state it
leaves behind. -/
def sAddExecute (st : Backend) (key : Bytes) (members : List Bytes) : RespFrame × Backend :=
  let p := members.foldl
    (fun (p : Int × Backend) m =>
      let r := backendSAdd p.2 key m
      (p.1 + r.1, r.2))
    ((0 : Int), st)
  (.Integer p.1, p.2)

/-- `SIsMember::execute` (src/cmd/hset.rs). -/
def sIsMemberExecute (st : Backend) (key member : Bytes) : RespFrame :=
  .Integer (if backendSIsMember st key member then 1 else 0)

/-- The field loop of `HMGet::execute` (src/cmd/hmap.rs): push the stored
value, or the unitary `Null` frame for a miss, in field order. -/
def hmGetLoop (st : Backend) (key : Bytes) : List Bytes → List RespFrame
  | [] => []
  | f :: fs =>
      (match backendHGet st key f with
       | some v => v
       | none => .Null) :: hmGetLoop st key fs

/-- `HMGet::execute` (src/cmd/hmap.rs): the collected values as a `RespArray`. -/
def hmGetExecute (st : Backend) (key : Bytes) (fields : List Bytes) : RespFrame :=
  .Array (some (hmGetLoop st key fields))

/-! ## The double encoder at format level (src/resp/double.rs)

`f64::encode` formats `,{:+e}\r\n` when `self.abs() > 1e+8 || self.abs() <
1e-8` and `,{sign}{}\r\n` otherwise (with `sign` equal to `+` unless the value
is negative, `Display` printing the minus itself).  IEEE comparisons are exact
comparisons of the represented rational values, `1e+8` is exactly `10^8`, and
`1e-8` is exactly `6044629098073146 / 2^79` (the nearest binary64 to `10^-8`,
which lies above it).  The digit rendering of `Display` / `LowerExp`
(shortest-roundtrip decimal output) is floating-point specific and not
modelled; the format choice and the sign byte are. -/

inductive DoubleForm : Type where
  | scientific
  | decimal
  deriving DecidableEq, Repr

/-- The value of the Rust `f64` literal `1e+8`, which is exact. -/
def f64Lit1e8 : ℚ := 10 ^ 8

/-- The value of the Rust `f64` literal `1e-8`: the nearest binary64 to
`10^-8`. -/
def f64Lit1em8 : ℚ := 6044629098073146 / 2 ^ 79

/-- Which format string `f64::encode` selects for a finite double of value
`x`. -/
def f64EncodeForm (x : ℚ) : DoubleForm :=
  if |x| > f64Lit1e8 ∨ |x| < f64Lit1em8 then .scientific else .decimal

/-- The sign byte following the `,` tag: both branches emit an explicit `+`
(byte 43) for non-negative values and `-` (byte 45) for negative ones. -/
def f64EncodeSignByte (x : ℚ) : Nat := if x < 0 then 45 else 43

/-- Modelled from the spec: the magnitude window in which the specification
says the decimal (non-scientific) form is used — `10⁻⁸ ≤ |x| ≤ 10⁸`, *or*
`x = 0`. -/
def specDoubleDecimalWindow (x : ℚ) : Prop :=
  ((1 : ℚ) / 10 ^ 8 ≤ |x| ∧ |x| ≤ 10 ^ 8) ∨ x = 0

/-- The finite binary64 values, as rationals: `m · 2^e` with `|m| < 2^53` and
`e ≥ -1074`. -/
def isF64Value (x : ℚ) : Prop :=
  ∃ m e : ℤ, |m| < 2 ^ 53 ∧ -1074 ≤ e ∧ x = (m : ℚ) * (2 : ℚ) ^ e

/-! ## The connection codec (src/network.rs) -/

/-- `RespFrameCodec::decode`: a decoded frame yields `Ok(Some(frame))`,
`NotComplete` yields `Ok(None)` — wait for more bytes — and any other decoder
error is returned as `Err`, which ends the connection.  The pair carries the
buffer contents after the call in the `Ok` cases. -/
def respFrameCodecDecode (buf : Bytes) :
    Except RespError (Option RespFrame × Bytes) :=
  match respFrameDecode buf with
  | .ok f rest => .ok (some f, rest)
  | .err .NotComplete rest => .ok (none, rest)
  | .err e _ => .error e

/-! ## Well-formedness of frames -/

/-- Bodies of wire `SimpleString`s: no CR and no LF bytes at all. -/
def crlfFree (s : Bytes) : Prop := ∀ b ∈ s, b ≠ 13 ∧ b ≠ 10

/-- No CR-LF pair occurs anywhere in the byte string. -/
def noPair : Bytes → Bool
  | [] => true
  | [_] => true
  | a :: b :: rest => !(a == 13 && b == 10) && noPair (b :: rest)

/-- The frame grammar the codec theorems quantify over.  The index `ab`
("allow Boolean") is `true` for the round-trip grammar and `false` for the
prefix-atomicity grammar (incomplete Boolean frames are mishandled by the
source, see the C1 counterexample).  The grammar excludes `Double` frames
(floating-point rendering is outside the embedding) and the `Option`-null
payloads of `BulkString` / `Array` (their encodings decode to the dedicated
`NullBulkString` / `NullArray` variants, see the C2 counterexample); simple
bodies and map keys are CR/LF-free as the claims require, bulk bodies contain
no CR-LF pair, integers fit `i64`, and aggregate lengths fit `i64` (they are
Rust `usize` values). -/
inductive WFFrame : Bool → RespFrame → Prop where
  | simpleString {ab : Bool} {s : Bytes} (h : crlfFree s) : WFFrame ab (.SimpleString s)
  | error {ab : Bool} {s : Bytes} (h : crlfFree s) : WFFrame ab (.Error s)
  | integer {ab : Bool} {i : Int} (h1 : i64Min ≤ i) (h2 : i ≤ i64Max) :
      WFFrame ab (.Integer i)
  | bulkString {ab : Bool} {d : Bytes} (h : noPair d = true)
      (hlen : (d.length : Int) ≤ i64Max) : WFFrame ab (.BulkString (some d))
  | nullBulkString {ab : Bool} : WFFrame ab .NullBulkString
  | nullArray {ab : Bool} : WFFrame ab .NullArray
  | null {ab : Bool} : WFFrame ab .Null
  | boolean {b : Bool} : WFFrame true (.Boolean b)
  | array {ab : Bool} {l : List RespFrame} (hlen : (l.length : Int) ≤ i64Max)
      (h : ∀ c ∈ l, WFFrame ab c) : WFFrame ab (.Array (some l))
  | map {ab : Bool} {m : List (Bytes × RespFrame)} (hlen : (m.length : Int) ≤ i64Max)
      (hkeys : ∀ kv ∈ m, crlfFree kv.1)
      (hsort : List.Pairwise (fun a b => bytesLt a.1 b.1 = true) m)
      (h : ∀ kv ∈ m, WFFrame ab kv.2) : WFFrame ab (.Map m)
  | set {ab : Bool} {l : List RespFrame} (hlen : (l.length : Int) ≤ i64Max)
      (h : ∀ c ∈ l, WFFrame ab c) : WFFrame ab (.Set l)

mutual

/-- Nesting depth of a frame: the recursion budget the decoder needs. -/
def frameDepth : RespFrame → Nat
  | .Array (some l) => frameDepthList l + 1
  | .Map m => frameDepthEntries m + 1
  | .Set l => frameDepthList l + 1
  | _ => 1

def frameDepthList : List RespFrame → Nat
  | [] => 0
  | f :: fs => max (frameDepth f) (frameDepthList fs)

def frameDepthEntries : List (Bytes × RespFrame) → Nat
  | [] => 0
  | kv :: rest => max (frameDepth kv.2) (frameDepthEntries rest)

end

/-! ## Derived views of the backend used by the command-level theorems -/

/-- The member list of set `key`, the empty list when the key is absent —
exactly the `or_default` view `Backend::sadd` works on. -/
def innerOf (st : Backend) (key : Bytes) : List Bytes :=
  (assocGet st.hset key).getD []

/-- One `sadd` step on the member list: insert the member unless present. -/
def sAddInsert (inner : List Bytes) (m : Bytes) : List Bytes :=
  if m ∈ inner then inner else m :: inner

/-- The total of the 0/1 results `Backend::sadd` returns over a member list,
starting from a given member list. -/
def sAddNewCount : List Bytes → List Bytes → Nat
  | _, [] => 0
  | inner, m :: ms =>
      (if m ∈ inner then 0 else 1) + sAddNewCount (sAddInsert inner m) ms

/-- A `BTreeMap` built by inserting the given (key, value) pairs in order
into the empty map — the only way the source ever builds a `RespMap`. -/
def mapFromList (ins : List (Bytes × RespFrame)) : List (Bytes × RespFrame) :=
  ins.foldl (fun acc kv => mapInsert kv.1 kv.2 acc) []

/-! ## Lemmas: decimal digits and numeral parsing -/

theorem digitsToNat_append_singleton (a : Bytes) (d : Nat) :
    digitsToNat (a ++ [d]) = 10 * digitsToNat a + (d - 48) := by
  simp [digitsToNat, List.foldl_append]

theorem natToDecAux_spec (fuel : Nat) :
    ∀ n, n < fuel →
      natToDecAux fuel n ≠ [] ∧
      (∀ b ∈ natToDecAux fuel n, 48 ≤ b ∧ b ≤ 57) ∧
      digitsToNat (natToDecAux fuel n) = n := by
  induction fuel with
  | zero => intro n h; omega
  | succ fuel ih =>
      intro n h
      by_cases h10 : n < 10
      · refine ⟨by simp [natToDecAux, h10], ?_, ?_⟩
        · intro b hb
          simp [natToDecAux, h10] at hb
          omega
        · simp [natToDecAux, h10, digitsToNat]
      · have hdiv : n / 10 < fuel := by
          have hlt : n / 10 < n := Nat.div_lt_self (by omega) (by omega)
          omega
        obtain ⟨hne, hdig, hval⟩ := ih (n / 10) hdiv
        rw [show natToDecAux (fuel + 1) n =
          natToDecAux fuel (n / 10) ++ [48 + n % 10] by simp [natToDecAux, h10]]
        refine ⟨by simp, ?_, ?_⟩
        · intro b hb
          rcases List.mem_append.mp hb with hb | hb
          · exact hdig b hb
          · simp at hb
            have : n % 10 < 10 := Nat.mod_lt _ (by omega)
            omega
        · rw [digitsToNat_append_singleton, hval]
          have := Nat.div_add_mod n 10
          omega

theorem natToDec_ne_nil (n : Nat) : natToDec n ≠ [] :=
  (natToDecAux_spec (n + 1) n (by omega)).1

theorem natToDec_digits (n : Nat) : ∀ b ∈ natToDec n, 48 ≤ b ∧ b ≤ 57 :=
  (natToDecAux_spec (n + 1) n (by omega)).2.1

theorem digitsToNat_natToDec (n : Nat) : digitsToNat (natToDec n) = n :=
  (natToDecAux_spec (n + 1) n (by omega)).2.2

theorem digitsVal?_natToDec (n : Nat) : digitsVal? (natToDec n) = some n := by
  have hne := natToDec_ne_nil n
  have hdig := natToDec_digits n
  have hall : (natToDec n).all isDigitByte = true := by
    rw [List.all_eq_true]
    intro b hb
    have := hdig b hb
    simp [isDigitByte]
    omega
  simp [digitsVal?, List.isEmpty_iff, hne, hall, digitsToNat_natToDec]

theorem parseNumeral?_digits (ds : Bytes) (hne : ds ≠ [])
    (hdig : ∀ b ∈ ds, 48 ≤ b ∧ b ≤ 57) :
    parseNumeral? ds = (digitsVal? ds).map (fun n => (n : Int)) := by
  match ds, hne with
  | d :: rest, _ =>
      have hd := hdig d (by simp)
      unfold parseNumeral?
      split
      · rename_i heq; injection heq with h1 _; omega
      · rename_i heq; injection heq with h1 _; omega
      · rfl

theorem parseNumeral?_natToDec (n : Nat) : parseNumeral? (natToDec n) = some (n : Int) := by
  rw [parseNumeral?_digits _ (natToDec_ne_nil n) (natToDec_digits n), digitsVal?_natToDec]
  rfl

theorem parseIsize_natToDec (n : Nat) (h : (n : Int) ≤ i64Max) :
    parseIsize (natToDec n) = some (n : Int) := by
  rw [parseIsize, parseIntBounded, parseNumeral?_natToDec]
  have : i64Min ≤ (n : Int) := by
    have : (0 : Int) ≤ n := Int.natCast_nonneg n
    simp [i64Min]
    omega
  simp [this, h]

theorem parseNumeral?_plus (ds : Bytes) :
    parseNumeral? (43 :: ds) = (digitsVal? ds).map (fun n => (n : Int)) := rfl

theorem parseNumeral?_minus (ds : Bytes) :
    parseNumeral? (45 :: ds) = (digitsVal? ds).map (fun n => -(n : Int)) := rfl

theorem parseNumeral?_plus_natToDec (n : Nat) :
    parseNumeral? (43 :: natToDec n) = some (n : Int) := by
  rw [parseNumeral?_plus, digitsVal?_natToDec]
  rfl

theorem parseNumeral?_minus_natToDec (n : Nat) :
    parseNumeral? (45 :: natToDec n) = some (-(n : Int)) := by
  rw [parseNumeral?_minus, digitsVal?_natToDec]
  rfl

theorem parseI64_encodedInt (i : Int) (h1 : i64Min ≤ i) (h2 : i ≤ i64Max) :
    parseI64 ((if i < 0 then [] else [43]) ++ intDisplay i) = some i := by
  by_cases hneg : i < 0
  · have habs : (i.natAbs : Int) = -i := by omega
    rw [parseI64, parseIntBounded]
    simp only [hneg, if_true, List.nil_append, intDisplay]
    rw [parseNumeral?_minus_natToDec]
    simp only [habs, neg_neg]
    simp [h1, h2]
  · have htn : (i.toNat : Int) = i := Int.toNat_of_nonneg (by omega)
    rw [parseI64, parseIntBounded]
    simp only [hneg, if_false, List.cons_append, List.nil_append, intDisplay]
    rw [parseNumeral?_plus_natToDec]
    simp only [htn]
    simp [h1, h2]

/-! ## Lemmas: CR-LF scanning -/

theorem noPair_cons {x : Nat} {rest : Bytes} (h : noPair (x :: rest) = true) :
    noPair rest = true := by
  match rest with
  | [] => rfl
  | b :: r =>
      rw [noPair, Bool.and_eq_true] at h
      exact h.2

theorem noPair_cons_pair {x b : Nat} {rest : Bytes} (h : noPair (x :: b :: rest) = true) :
    ¬(x = 13 ∧ b = 10) := by
  rw [noPair, Bool.and_eq_true] at h
  intro hc
  simp [hc.1, hc.2] at h

theorem notPair_bool {x y : Nat} (hp : ¬(x = 13 ∧ y = 10)) :
    (!(x == 13 && y == 10)) = true := by
  by_cases hx : x = 13
  · by_cases hy : y = 10
    · exact absurd ⟨hx, hy⟩ hp
    · simp [hx, hy]
  · simp [hx]

theorem noPair_of_no13 {l : Bytes} (h : ∀ b ∈ l, b ≠ 13) : noPair l = true := by
  induction l with
  | nil => rfl
  | cons a rest ih =>
      match rest with
      | [] => rfl
      | b :: r =>
          rw [noPair, Bool.and_eq_true]
          refine ⟨?_, ih (fun x hx => h x (by simp [hx]))⟩
          have ha : a ≠ 13 := h a (by simp)
          exact notPair_bool (fun hc => ha hc.1)

theorem noPair_of_append_left {a b : Bytes} (h : noPair (a ++ b) = true) :
    noPair a = true := by
  induction a with
  | nil => rfl
  | cons x a' ih =>
      match a' with
      | [] => rfl
      | y :: a'' =>
          have hp : ¬(x = 13 ∧ y = 10) := noPair_cons_pair h
          rw [noPair, Bool.and_eq_true]
          exact ⟨notPair_bool hp, ih (noPair_cons h)⟩

theorem noPair_take {l : Bytes} (h : noPair l = true) (k : Nat) :
    noPair (l.take k) = true := by
  have := List.take_append_drop k l
  exact noPair_of_append_left (by rw [this]; exact h)

theorem noPair_append_cr {l : Bytes} (h : noPair l = true) :
    noPair (l ++ [13]) = true := by
  induction l with
  | nil => rfl
  | cons x l' ih =>
      match l' with
      | [] => simp [noPair]
      | y :: l'' =>
          have hp : ¬(x = 13 ∧ y = 10) := noPair_cons_pair h
          rw [List.cons_append, List.cons_append, noPair, Bool.and_eq_true]
          rw [← List.cons_append]
          exact ⟨notPair_bool hp, ih (noPair_cons h)⟩

theorem noPair_cons10 {l : Bytes} (h : noPair l = true) : noPair (10 :: l) = true := by
  match l with
  | [] => rfl
  | x :: r =>
      rw [noPair, Bool.and_eq_true]
      exact ⟨by simp, h⟩

theorem findCrlfAux_none {p : Bytes} (h : noPair p = true) :
    ∀ nth i, findCrlfAux p nth i = none := by
  induction p with
  | nil => intro nth i; rfl
  | cons a rest ih =>
      intro nth i
      match rest with
      | [] => rfl
      | b :: r =>
          have hp : ¬(a = 13 ∧ b = 10) := noPair_cons_pair h
          rw [findCrlfAux, if_neg hp]
          exact ih (noPair_cons h) nth (i + 1)

theorem findCrlfAux_pair_append {c : Bytes} (h : noPair c = true) (b : Bytes) :
    ∀ nth i, findCrlfAux (c ++ 13 :: 10 :: b) nth i =
      if nth = 1 then some (i + c.length)
      else findCrlfAux (10 :: b) (nth - 1) (i + c.length + 1) := by
  induction c with
  | nil =>
      intro nth i
      rw [List.nil_append, findCrlfAux, if_pos ⟨rfl, rfl⟩]
      simp
  | cons x c' ih =>
      intro nth i
      match c' with
      | [] =>
          rw [List.cons_append, List.nil_append, findCrlfAux,
            if_neg (by simp), findCrlfAux, if_pos ⟨rfl, rfl⟩]
          by_cases h1 : nth = 1
          · simp [h1]
          · rw [if_neg h1, if_neg h1]
            exact congrArg (findCrlfAux (10 :: b) (nth - 1)) (by simp <;> omega)
      | y :: c'' =>
          have hp : ¬(x = 13 ∧ y = 10) := noPair_cons_pair h
          rw [List.cons_append, show (y :: c'') ++ 13 :: 10 :: b =
            y :: (c'' ++ 13 :: 10 :: b) from rfl, findCrlfAux, if_neg hp]
          rw [show y :: (c'' ++ 13 :: 10 :: b) = (y :: c'') ++ 13 :: 10 :: b from rfl]
          rw [ih (noPair_cons h) nth (i + 1)]
          by_cases h1 : nth = 1
          · rw [if_pos h1, if_pos h1]
            exact congrArg some (by simp <;> omega)
          · rw [if_neg h1, if_neg h1]
            exact congrArg (findCrlfAux (10 :: b) (nth - 1)) (by simp <;> omega)

theorem findCrlf_pair {c : Bytes} (h : noPair c = true) (b : Bytes) :
    findCrlf (c ++ 13 :: 10 :: b) 1 = some c.length := by
  rw [findCrlf, findCrlfAux_pair_append h b 1 0, if_pos rfl, Nat.zero_add]

theorem findCrlf_pair2 {c d : Bytes} (hc : noPair c = true) (hd : noPair d = true)
    (b : Bytes) :
    findCrlf (c ++ 13 :: 10 :: (d ++ 13 :: 10 :: b)) 2 = some (c.length + d.length + 2) := by
  rw [findCrlf, findCrlfAux_pair_append hc _ 2 0, if_neg (by omega)]
  rw [show (10 : Nat) :: (d ++ 13 :: 10 :: b) = (10 :: d) ++ 13 :: 10 :: b from rfl]
  rw [findCrlfAux_pair_append (noPair_cons10 hd) b (2 - 1) (0 + c.length + 1),
    if_pos rfl]
  simp
  omega

theorem findCrlf_none {p : Bytes} (h : noPair p = true) (nth : Nat) :
    findCrlf p nth = none := findCrlfAux_none h nth 0

theorem findCrlf_one_pair_none {c q : Bytes} (hc : noPair c = true)
    (hq : noPair q = true) :
    findCrlf (c ++ 13 :: 10 :: q) 2 = none := by
  rw [findCrlf, findCrlfAux_pair_append hc q 2 0, if_neg (by omega)]
  exact findCrlfAux_none (noPair_cons10 hq) (2 - 1) (0 + c.length + 1)

/-! ## Lemmas: the extraction helpers -/

theorem take_header {c q : Bytes} : (c ++ 13 :: 10 :: q).take c.length = c :=
  List.take_left c _

theorem take_header2 {c q : Bytes} :
    (c ++ 13 :: 10 :: q).take (c.length + 2) = c ++ [13, 10] := by
  rw [show c ++ 13 :: 10 :: q = (c ++ [13, 10]) ++ q by simp]
  rw [show c.length + 2 = (c ++ [13, 10]).length by simp]
  exact List.take_left _ _

theorem drop_header {c q : Bytes} : (c ++ 13 :: 10 :: q).drop (c.length + 2) = q := by
  rw [show c ++ 13 :: 10 :: q = (c ++ [13, 10]) ++ q by simp]
  rw [show c.length + 2 = (c ++ [13, 10]).length by simp]
  exact List.drop_left _ _

theorem extractFixedData_ok (expect rest : Bytes) :
    extractFixedData (expect ++ rest) expect = .ok () rest := by
  have h1 : ¬ (expect ++ rest).length < expect.length := by simp
  have h2 : expect.isPrefixOf (expect ++ rest) = true :=
    List.isPrefixOf_iff_prefix.mpr (List.prefix_append _ _)
  simp [extractFixedData, h1, h2]

theorem extractFixedData_nc {buf expect : Bytes} (h : buf.length < expect.length) :
    extractFixedData buf expect = .err .NotComplete buf := by
  simp [extractFixedData, h]

theorem extractFixedData_err_shape {buf expect : Bytes}
    (h : expect.isPrefixOf buf = false) :
    extractFixedData buf expect =
      .err (if buf.length < expect.length then RespError.NotComplete
            else RespError.InvalidFrameType) buf := by
  by_cases hl : buf.length < expect.length
  · simp [extractFixedData, hl]
  · simp [extractFixedData, hl, h]

theorem isPrefixOf_tag {t : Nat} (q : Bytes) : [t].isPrefixOf (t :: q) = true := by
  simp [List.isPrefixOf]

theorem notPrefix_sentinel {t b : Nat} (q : Bytes) (hb : b ≠ 45) :
    [t, 45, 49, 13, 10].isPrefixOf (t :: b :: q) = false := by
  simp [List.isPrefixOf]
  intro
  omega

theorem notPrefix_sentinel_single {t : Nat} :
    [t, 45, 49, 13, 10].isPrefixOf [t] = false := by
  simp [List.isPrefixOf]

theorem extractSimpleFrameData_ok1 {t : Nat} {body : Bytes} (rest : Bytes)
    (h : noPair (t :: body) = true) :
    extractSimpleFrameData ((t :: body) ++ 13 :: 10 :: rest) [t] 1 =
      .ok (body.length + 1) := by
  have hlen : ¬ ((t :: body) ++ 13 :: 10 :: rest).length < 3 := by simp; omega
  have hpre : ¬ ¬ [t].isPrefixOf ((t :: body) ++ 13 :: 10 :: rest) = true := by
    rw [List.cons_append, isPrefixOf_tag]; simp
  have hf : findCrlf ((t :: body) ++ 13 :: 10 :: rest) 1 = some (body.length + 1) := by
    rw [findCrlf_pair h rest, List.length_cons]
  rw [extractSimpleFrameData, if_neg hlen, if_neg hpre, hf]
  have hne : body.length + 1 ≠ 0 := by omega
  simp [hne]

theorem extractSimpleFrameData_ok2 {t : Nat} {h1 h2 : Bytes} (rest : Bytes)
    (hc : noPair (t :: h1) = true) (hd : noPair h2 = true) :
    extractSimpleFrameData ((t :: h1) ++ 13 :: 10 :: (h2 ++ 13 :: 10 :: rest)) [t] 2 =
      .ok (h1.length + h2.length + 3) := by
  have hlen : ¬ ((t :: h1) ++ 13 :: 10 :: (h2 ++ 13 :: 10 :: rest)).length < 3 := by
    simp; omega
  have hpre : ¬ ¬ [t].isPrefixOf ((t :: h1) ++ 13 :: 10 :: (h2 ++ 13 :: 10 :: rest)) = true := by
    rw [List.cons_append, isPrefixOf_tag]; simp
  have hf : findCrlf ((t :: h1) ++ 13 :: 10 :: (h2 ++ 13 :: 10 :: rest)) 2 =
      some (h1.length + h2.length + 3) := by
    rw [findCrlf_pair2 hc hd rest, List.length_cons]
    exact congrArg some (by omega)
  rw [extractSimpleFrameData, if_neg hlen, if_neg hpre, hf]
  have hne : h1.length + h2.length + 3 ≠ 0 := by omega
  simp [hne]

theorem extractSimpleFrameData_nc {buf pre : Bytes} {nth : Nat}
    (h : noPair buf = true) (hp : 3 ≤ buf.length → pre.isPrefixOf buf = true) :
    extractSimpleFrameData buf pre nth = .error .NotComplete := by
  by_cases hl : buf.length < 3
  · rw [extractSimpleFrameData, if_pos hl]
  · have hpre : ¬ ¬ pre.isPrefixOf buf = true := by rw [hp (by omega)]; simp
    rw [extractSimpleFrameData, if_neg hl, if_neg hpre, findCrlf_none h nth]

theorem extractSimpleFrameData_nc2 {t : Nat} {h1 q : Bytes}
    (hc : noPair (t :: h1) = true) (hq : noPair q = true) :
    extractSimpleFrameData ((t :: h1) ++ 13 :: 10 :: q) [t] 2 = .error .NotComplete := by
  have hlen : ¬ ((t :: h1) ++ 13 :: 10 :: q).length < 3 := by simp; omega
  have hpre : ¬ ¬ [t].isPrefixOf ((t :: h1) ++ 13 :: 10 :: q) = true := by
    rw [List.cons_append, isPrefixOf_tag]; simp
  rw [extractSimpleFrameData, if_neg hlen, if_neg hpre, findCrlf_one_pair_none hc hq]

/-! ## Lemmas: length parsing -/

theorem natToDec_no13 (n : Nat) : ∀ b ∈ natToDec n, b ≠ 13 := by
  intro b hb
  have := natToDec_digits n b hb
  omega

theorem parseLength_ok {t : Nat} (ht : t ≠ 13) (n : Nat) (rest : Bytes)
    (hn : (n : Int) ≤ i64Max) :
    parseLength ((t :: natToDec n) ++ 13 :: 10 :: rest) [t] =
      .ok ((natToDec n).length + 1, (n : Int)) := by
  have hnp : noPair (t :: natToDec n) = true := by
    apply noPair_of_no13
    intro b hb
    rcases List.mem_cons.mp hb with hb | hb
    · exact hb ▸ ht
    · exact natToDec_no13 n b hb
  have he := extractSimpleFrameData_ok1 rest hnp
  rw [parseLength, he]
  have htake : (t :: (natToDec n ++ 13 :: 10 :: rest)).take ((natToDec n).length + 1) =
      t :: natToDec n := by
    rw [List.take_succ_cons, List.take_left]
  simp only [List.cons_append]
  rw [htake]
  simp only [List.length_cons, List.length_nil, List.drop_succ_cons, List.drop_zero]
  rw [parseIsize_natToDec n hn]

theorem parseLength_nc {buf pre : Bytes} (h : noPair buf = true)
    (hp : 3 ≤ buf.length → pre.isPrefixOf buf = true) :
    parseLength buf pre = .error .NotComplete := by
  rw [parseLength, extractSimpleFrameData_nc h hp]

/-! ## Lemmas: per-variant decoders on complete input -/

theorem natToDec_cons (n : Nat) :
    ∃ d0 ds, natToDec n = d0 :: ds ∧ 48 ≤ d0 ∧ d0 ≤ 57 := by
  match hh : natToDec n with
  | [] => exact absurd hh (natToDec_ne_nil n)
  | d0 :: ds =>
      have := natToDec_digits n d0 (by rw [hh]; simp)
      exact ⟨d0, ds, rfl, this.1, this.2⟩

theorem crlfFree_noPair_tag {t : Nat} {s : Bytes} (ht : t ≠ 13) (hs : crlfFree s) :
    noPair (t :: s) = true := by
  apply noPair_of_no13
  intro b hb
  rcases List.mem_cons.mp hb with hb | hb
  · exact hb ▸ ht
  · exact (hs b hb).1

theorem simpleStringDecode_ok {s : Bytes} (rest : Bytes) (hs : noPair (43 :: s) = true) :
    simpleStringDecode (43 :: (s ++ 13 :: 10 :: rest)) = .ok s rest := by
  have he := @extractSimpleFrameData_ok1 43 s rest hs
  rw [show ((43 :: s) ++ 13 :: 10 :: rest : Bytes) = 43 :: (s ++ 13 :: 10 :: rest) by simp] at he
  rw [simpleStringDecode, he]
  show DecRes.ok (((43 :: (s ++ 13 :: 10 :: rest)).take (s.length + 1)).drop 1)
      ((43 :: (s ++ 13 :: 10 :: rest)).drop (s.length + 1 + 2)) = DecRes.ok s rest
  have htake : (43 :: (s ++ 13 :: 10 :: rest)).take (s.length + 1) = 43 :: s := by
    rw [List.take_succ_cons, List.take_left]
  have hdrop : (43 :: (s ++ 13 :: 10 :: rest)).drop (s.length + 1 + 2) = rest := by
    rw [show (43 : Nat) :: (s ++ 13 :: 10 :: rest) = (43 :: s) ++ 13 :: 10 :: rest by simp,
      show s.length + 1 + 2 = (43 :: s).length + 2 by simp]
    exact drop_header
  rw [htake, hdrop]
  simp

theorem simpleErrorDecode_ok {s : Bytes} (rest : Bytes) (hs : noPair (45 :: s) = true) :
    simpleErrorDecode (45 :: (s ++ 13 :: 10 :: rest)) = .ok s rest := by
  have he := @extractSimpleFrameData_ok1 45 s rest hs
  rw [show ((45 :: s) ++ 13 :: 10 :: rest : Bytes) = 45 :: (s ++ 13 :: 10 :: rest) by simp] at he
  rw [simpleErrorDecode, he]
  show DecRes.ok (((45 :: (s ++ 13 :: 10 :: rest)).take (s.length + 1)).drop 1)
      ((45 :: (s ++ 13 :: 10 :: rest)).drop (s.length + 1 + 2)) = DecRes.ok s rest
  have htake : (45 :: (s ++ 13 :: 10 :: rest)).take (s.length + 1) = 45 :: s := by
    rw [List.take_succ_cons, List.take_left]
  have hdrop : (45 :: (s ++ 13 :: 10 :: rest)).drop (s.length + 1 + 2) = rest := by
    rw [show (45 : Nat) :: (s ++ 13 :: 10 :: rest) = (45 :: s) ++ 13 :: 10 :: rest by simp,
      show s.length + 1 + 2 = (45 :: s).length + 2 by simp]
    exact drop_header
  rw [htake, hdrop]
  simp

theorem intBody_no13 (i : Int) :
    ∀ b ∈ (if i < 0 then ([] : Bytes) else [43]) ++ intDisplay i, b ≠ 13 := by
  intro b hb
  rcases List.mem_append.mp hb with hb | hb
  · by_cases hneg : i < 0
    · simp [hneg] at hb
    · simp [hneg] at hb
      omega
  · rw [intDisplay] at hb
    by_cases hneg : i < 0
    · simp [hneg] at hb
      rcases hb with hb | hb
      · omega
      · exact natToDec_no13 _ b hb
    · simp [hneg] at hb
      exact natToDec_no13 _ b hb

theorem i64Decode_ok {i : Int} (rest : Bytes) (h1 : i64Min ≤ i) (h2 : i ≤ i64Max) :
    i64Decode (58 :: (((if i < 0 then ([] : Bytes) else [43]) ++ intDisplay i) ++
      13 :: 10 :: rest)) = .ok i rest := by
  set body := (if i < 0 then ([] : Bytes) else [43]) ++ intDisplay i with hbody
  have hnp : noPair (58 :: body) = true := by
    apply noPair_of_no13
    intro b hb
    rcases List.mem_cons.mp hb with hb | hb
    · omega
    · exact intBody_no13 i b hb
  have he := @extractSimpleFrameData_ok1 58 body rest hnp
  rw [show ((58 :: body) ++ 13 :: 10 :: rest : Bytes) = 58 :: (body ++ 13 :: 10 :: rest) by
    simp] at he
  rw [i64Decode, he]
  show (match parseI64 (((58 :: (body ++ 13 :: 10 :: rest)).take (body.length + 1)).drop 1) with
    | some v => DecRes.ok v ((58 :: (body ++ 13 :: 10 :: rest)).drop (body.length + 1 + 2))
    | none => DecRes.err RespError.ParseIntError
        ((58 :: (body ++ 13 :: 10 :: rest)).drop (body.length + 1 + 2))) = DecRes.ok i rest
  have htake : (58 :: (body ++ 13 :: 10 :: rest)).take (body.length + 1) = 58 :: body := by
    rw [List.take_succ_cons, List.take_left]
  have hdrop : (58 :: (body ++ 13 :: 10 :: rest)).drop (body.length + 1 + 2) = rest := by
    rw [show (58 : Nat) :: (body ++ 13 :: 10 :: rest) = (58 :: body) ++ 13 :: 10 :: rest by simp,
      show body.length + 1 + 2 = (58 :: body).length + 2 by simp]
    exact drop_header
  rw [htake, hdrop]
  simp only [List.drop_succ_cons, List.drop_zero]
  rw [hbody, parseI64_encodedInt i h1 h2]

theorem boolDecode_ok (b : Bool) (rest : Bytes) :
    boolDecode ([35, if b then 116 else 102, 13, 10] ++ rest) = .ok b rest := by
  cases b
  · have hp : [35, 116, 13, 10].isPrefixOf ((35 : Nat) :: 102 :: 13 :: 10 :: rest) = false := by
      simp [List.isPrefixOf]
    rw [boolDecode]
    rw [show ([35, if false then 116 else 102, 13, 10] ++ rest : Bytes) =
      35 :: 102 :: 13 :: 10 :: rest by simp]
    rw [extractFixedData_err_shape hp]
    rw [show ((35 : Nat) :: 102 :: 13 :: 10 :: rest) = [35, 102, 13, 10] ++ rest by simp,
      extractFixedData_ok]
  · rw [boolDecode]
    rw [show ([35, if true then 116 else 102, 13, 10] ++ rest : Bytes) =
      [35, 116, 13, 10] ++ rest by simp]
    rw [extractFixedData_ok]

theorem extractFixedData_sentinel_err {t : Nat} (n : Nat) (X : Bytes) :
    ∃ er, extractFixedData (t :: (natToDec n ++ X)) [t, 45, 49, 13, 10] =
      .err er (t :: (natToDec n ++ X)) := by
  obtain ⟨d0, ds, hds, hd1, hd2⟩ := natToDec_cons n
  have hp : [t, 45, 49, 13, 10].isPrefixOf (t :: (natToDec n ++ X)) = false := by
    rw [hds, List.cons_append]
    exact notPrefix_sentinel _ (by omega)
  exact ⟨_, extractFixedData_err_shape hp⟩

theorem bulkStringDecode_ok {d : Bytes} (rest : Bytes) (hd : noPair d = true)
    (hlen : (d.length : Int) ≤ i64Max) :
    bulkStringDecode (36 :: (natToDec d.length ++ 13 :: 10 :: (d ++ 13 :: 10 :: rest))) =
      .ok (some d) rest := by
  obtain ⟨er, her⟩ := extractFixedData_sentinel_err (t := 36) d.length
    (13 :: 10 :: (d ++ 13 :: 10 :: rest))
  have hnp : noPair (36 :: natToDec d.length) = true := by
    apply noPair_of_no13
    intro b hb
    rcases List.mem_cons.mp hb with hb | hb
    · omega
    · exact natToDec_no13 _ b hb
  have he := @extractSimpleFrameData_ok2 36 (natToDec d.length) d
    rest hnp hd
  rw [show ((36 :: natToDec d.length) ++ 13 :: 10 :: (d ++ 13 :: 10 :: rest) : Bytes) =
    36 :: (natToDec d.length ++ 13 :: 10 :: (d ++ 13 :: 10 :: rest)) by simp] at he
  rw [bulkStringDecode, her, he]
  show (let data := (36 :: (natToDec d.length ++ 13 :: 10 :: (d ++ 13 :: 10 :: rest))).take
          ((natToDec d.length).length + d.length + 3 + 2)
        let buf' := (36 :: (natToDec d.length ++ 13 :: 10 :: (d ++ 13 :: 10 :: rest))).drop
          ((natToDec d.length).length + d.length + 3 + 2)
        match parseLength data [36] with
        | .error e2 => DecRes.err e2 buf'
        | .ok (e2, len) =>
            if len < 0 then DecRes.err .InvalidFrame buf'
            else
              let lenN := len.toNat
              let data2 := data.drop (e2 + 2)
              if data2.length ≠ lenN + 2 then DecRes.err .NotComplete buf'
              else DecRes.ok (some (data2.take lenN)) buf') = DecRes.ok (some d) rest
  have hsplit : (36 : Nat) :: (natToDec d.length ++ 13 :: 10 :: (d ++ 13 :: 10 :: rest)) =
      ((36 :: natToDec d.length) ++ 13 :: 10 :: (d ++ [13, 10])) ++ rest := by
    simp
  have hlen5 : (natToDec d.length).length + d.length + 3 + 2 =
      ((36 :: natToDec d.length) ++ 13 :: 10 :: (d ++ [13, 10])).length := by
    simp
    omega
  have htake : (36 :: (natToDec d.length ++ 13 :: 10 :: (d ++ 13 :: 10 :: rest))).take
      ((natToDec d.length).length + d.length + 3 + 2) =
      (36 :: natToDec d.length) ++ 13 :: 10 :: (d ++ [13, 10]) := by
    rw [hsplit, hlen5]
    exact List.take_left _ _
  have hdrop : (36 :: (natToDec d.length ++ 13 :: 10 :: (d ++ 13 :: 10 :: rest))).drop
      ((natToDec d.length).length + d.length + 3 + 2) = rest := by
    rw [hsplit, hlen5]
    exact List.drop_left _ _
  simp only [htake, hdrop]
  have hpl := parseLength_ok (t := 36) (by omega) d.length (d ++ [13, 10]) hlen
  rw [hpl]
  show (if (d.length : Int) < 0 then
          DecRes.err RespError.InvalidFrame rest
        else
          if (((36 :: natToDec d.length) ++ 13 :: 10 :: (d ++ [13, 10])).drop
              ((natToDec d.length).length + 1 + 2)).length ≠ (d.length : Int).toNat + 2 then
            DecRes.err RespError.NotComplete rest
          else DecRes.ok (some ((((36 :: natToDec d.length) ++ 13 :: 10 :: (d ++ [13, 10])).drop
              ((natToDec d.length).length + 1 + 2)).take (d.length : Int).toNat)) rest) =
      DecRes.ok (some d) rest
  have hneg : ¬ ((d.length : Int) < 0) := by omega
  rw [if_neg hneg]
  have hdrop2 : ((36 :: natToDec d.length) ++ 13 :: 10 :: (d ++ [13, 10])).drop
      ((natToDec d.length).length + 1 + 2) = d ++ [13, 10] := by
    rw [show (natToDec d.length).length + 1 + 2 = (36 :: natToDec d.length).length + 2 by simp]
    exact drop_header
  rw [hdrop2]
  have htn : ((d.length : Int)).toNat = d.length := by omega
  rw [htn]
  rw [if_neg (by simp)]
  rw [List.take_left]

/-! ## Lemmas: frame-decoder dispatch -/

theorem decodeF_succ_simpleString (fuel : Nat) (X : Bytes) :
    decodeF (fuel + 1) (43 :: X) =
      (match simpleStringDecode (43 :: X) with
       | .ok s rest => .ok (.SimpleString s) rest
       | .err e rest => .err e rest) := rfl

theorem decodeF_succ_error (fuel : Nat) (X : Bytes) :
    decodeF (fuel + 1) (45 :: X) =
      (match simpleErrorDecode (45 :: X) with
       | .ok s rest => .ok (.Error s) rest
       | .err e rest => .err e rest) := rfl

theorem decodeF_succ_integer (fuel : Nat) (X : Bytes) :
    decodeF (fuel + 1) (58 :: X) =
      (match i64Decode (58 :: X) with
       | .ok i rest => .ok (.Integer i) rest
       | .err e rest => .err e rest) := rfl

theorem decodeF_succ_bulk (fuel : Nat) (X : Bytes) :
    decodeF (fuel + 1) (36 :: X) =
      (match respNullBulkStringDecode (36 :: X) with
       | .ok _ rest => .ok .NullBulkString rest
       | .err _ _ =>
           match bulkStringDecode (36 :: X) with
           | .ok b rest => .ok (.BulkString b) rest
           | .err e rest => .err e rest) := rfl

theorem decodeF_succ_array (fuel : Nat) (X : Bytes) :
    decodeF (fuel + 1) (42 :: X) =
      (match respNullArrayDecode (42 :: X) with
       | .ok _ rest => .ok .NullArray rest
       | .err _ _ =>
           match respArrayDecode (decodeF fuel) (42 :: X) with
           | .ok a rest => .ok (.Array a) rest
           | .err e rest => .err e rest) := rfl

theorem decodeF_succ_null (fuel : Nat) (X : Bytes) :
    decodeF (fuel + 1) (95 :: X) =
      (match respNullDecode (95 :: X) with
       | .ok _ rest => .ok .Null rest
       | .err e rest => .err e rest) := rfl

theorem decodeF_succ_boolean (fuel : Nat) (X : Bytes) :
    decodeF (fuel + 1) (35 :: X) =
      (match boolDecode (35 :: X) with
       | .ok b rest => .ok (.Boolean b) rest
       | .err e rest => .err e rest) := rfl

theorem decodeF_succ_double (fuel : Nat) (X : Bytes) :
    decodeF (fuel + 1) (44 :: X) =
      (match f64Decode (44 :: X) with
       | .ok d rest => .ok (.Double d) rest
       | .err e rest => .err e rest) := rfl

theorem decodeF_succ_map (fuel : Nat) (X : Bytes) :
    decodeF (fuel + 1) (37 :: X) =
      (match respMapDecode (decodeF fuel) (37 :: X) with
       | .ok m rest => .ok (.Map m) rest
       | .err e rest => .err e rest) := rfl

theorem decodeF_succ_set (fuel : Nat) (X : Bytes) :
    decodeF (fuel + 1) (126 :: X) =
      (match respSetDecode (decodeF fuel) (126 :: X) with
       | .ok s rest => .ok (.Set s) rest
       | .err e rest => .err e rest) := rfl

theorem decodeF_zero (buf : Bytes) : decodeF 0 buf = .err .NotComplete buf := rfl

theorem decodeF_nil (fuel : Nat) : decodeF fuel [] = .err .NotComplete [] := by
  cases fuel <;> rfl

/-! ## Lemmas: encoder basics -/

theorem encodeFrame_ne_nil (f : RespFrame) : encodeFrame f ≠ [] := by
  cases f with
  | BulkString b => cases b <;> simp [encodeFrame]
  | Array a => cases a <;> simp [encodeFrame]
  | SimpleString s => simp [encodeFrame]
  | Error s => simp [encodeFrame]
  | Integer i => simp [encodeFrame]
  | NullBulkString => simp [encodeFrame]
  | NullArray => simp [encodeFrame]
  | Null => simp [encodeFrame]
  | Boolean b => simp [encodeFrame]
  | Double d => simp [encodeFrame]
  | Map m => simp [encodeFrame]
  | Set s => simp [encodeFrame]

theorem encodeFrameList_cons (f : RespFrame) (fs : List RespFrame) :
    encodeFrameList (f :: fs) = encodeFrame f ++ encodeFrameList fs := rfl

theorem encodeEntryList_cons (k : Bytes) (v : RespFrame) (rest : List (Bytes × RespFrame)) :
    encodeEntryList ((k, v) :: rest) = (43 :: k ++ crlf) ++ encodeFrame v ++ encodeEntryList rest := rfl

/-! ## Lemmas: the byte-string order and map insertion -/

theorem bytesLt_irrefl (a : Bytes) : bytesLt a a = false := by
  induction a with
  | nil => rfl
  | cons x r ih => simp [bytesLt, ih]

theorem bytesLt_asymm : ∀ {a b : Bytes}, bytesLt a b = true → bytesLt b a = false
  | [], [], h => by simp [bytesLt] at h
  | [], _ :: _, _ => by simp [bytesLt]
  | _ :: _, [], h => by simp [bytesLt] at h
  | a :: as, b :: bs, h => by
      rw [bytesLt] at h ⊢
      by_cases hab : a < b
      · simp [hab, (show ¬ b < a by omega)]
      · by_cases hba : b < a
        · simp [hab, hba] at h
        · simp only [if_neg hab, if_neg hba] at h
          simp only [if_neg hba, if_neg hab]
          exact bytesLt_asymm h

theorem bytesLt_ne {a b : Bytes} (h : bytesLt a b = true) : a ≠ b := by
  intro he
  subst he
  rw [bytesLt_irrefl] at h
  exact Bool.false_ne_true h

theorem bytesLt_total : ∀ {a b : Bytes}, a ≠ b → bytesLt a b = true ∨ bytesLt b a = true
  | [], [], h => absurd rfl h
  | [], _ :: _, _ => by simp [bytesLt]
  | _ :: _, [], _ => by simp [bytesLt]
  | a :: as, b :: bs, h => by
      by_cases hab : a < b
      · exact Or.inl (by simp [bytesLt, hab])
      · by_cases hba : b < a
        · exact Or.inr (by simp [bytesLt, hba, (show ¬ a < b by omega)])
        · have hao : a = b := by omega
          subst hao
          have : as ≠ bs := fun he => h (by rw [he])
          rcases bytesLt_total this with hl | hl
          · exact Or.inl (by simp [bytesLt, hab, hl])
          · exact Or.inr (by simp [bytesLt, hab, hl])

theorem bytesLt_trans : ∀ {a b c : Bytes},
    bytesLt a b = true → bytesLt b c = true → bytesLt a c = true
  | [], _, _ :: _, _, _ => by simp [bytesLt]
  | [], b, [], _, hbc => by
      cases b <;> simp [bytesLt] at hbc
  | _ :: _, [], _, hab, _ => by simp [bytesLt] at hab
  | a :: as, b :: bs, [], _, hbc => by simp [bytesLt] at hbc
  | a :: as, b :: bs, c :: cs, hab, hbc => by
      rw [bytesLt] at hab hbc ⊢
      by_cases hab1 : a < b
      · by_cases hbc1 : b < c
        · simp [(show a < c by omega)]
        · by_cases hcb : c < b
          · simp [hbc1, hcb] at hbc
          · have : b = c := by omega
            subst this
            simp [hab1]
      · by_cases hba : b < a
        · simp [hab1, hba] at hab
        · have : a = b := by omega
          subst this
          by_cases hbc1 : a < c
          · simp [hbc1]
          · by_cases hcb : c < a
            · simp [hbc1, hcb] at hbc
            · simp only [if_neg hbc1, if_neg hcb] at hbc ⊢
              simp only [if_neg hab1] at hab
              exact bytesLt_trans hab hbc

theorem mapInsert_append {k : Bytes} {v : RespFrame} :
    ∀ {acc : List (Bytes × RespFrame)},
      (∀ kv ∈ acc, bytesLt kv.1 k = true) → mapInsert k v acc = acc ++ [(k, v)]
  | [], _ => rfl
  | (k', v') :: rest, h => by
      have hk' : bytesLt k' k = true := h (k', v') (by simp)
      have h1 : bytesLt k k' = false := bytesLt_asymm hk'
      have h2 : k ≠ k' := fun he => (bytesLt_ne hk') he.symm
      rw [mapInsert, if_neg (by simp [h1]), if_neg h2,
        mapInsert_append (fun kv hkv => h kv (by simp [hkv]))]
      simp

theorem mapInsert_mem {k : Bytes} {v : RespFrame} :
    ∀ {l : List (Bytes × RespFrame)} {kv : Bytes × RespFrame},
      kv ∈ mapInsert k v l → kv ∈ l ∨ kv = (k, v)
  | [], kv, h => by simp [mapInsert] at h; exact Or.inr h
  | (k', v') :: rest, kv, h => by
      rw [mapInsert] at h
      by_cases h1 : bytesLt k k' = true
      · rw [if_pos h1] at h
        rcases List.mem_cons.mp h with h | h
        · exact Or.inr h
        · exact Or.inl h
      · rw [if_neg h1] at h
        by_cases h2 : k = k'
        · rw [if_pos h2] at h
          rcases List.mem_cons.mp h with h | h
          · exact Or.inr h
          · exact Or.inl (by simp [h])
        · rw [if_neg h2] at h
          rcases List.mem_cons.mp h with h | h
          · exact Or.inl (by simp [h])
          · rcases mapInsert_mem h with h | h
            · exact Or.inl (by simp [h])
            · exact Or.inr h

theorem mapInsert_pairwise {k : Bytes} {v : RespFrame} :
    ∀ {l : List (Bytes × RespFrame)},
      List.Pairwise (fun a b => bytesLt a.1 b.1 = true) l →
      List.Pairwise (fun a b => bytesLt a.1 b.1 = true) (mapInsert k v l)
  | [], _ => by simp [mapInsert]
  | (k', v') :: rest, hp => by
      rcases List.pairwise_cons.mp hp with ⟨hk', hrest⟩
      rw [mapInsert]
      by_cases h1 : bytesLt k k' = true
      · rw [if_pos h1]
        refine List.pairwise_cons.mpr ⟨?_, hp⟩
        intro kv hkv
        rcases List.mem_cons.mp hkv with h | h
        · rw [h]; exact h1
        · exact bytesLt_trans h1 (hk' kv h)
      · rw [if_neg h1]
        by_cases h2 : k = k'
        · rw [if_pos h2]
          refine List.pairwise_cons.mpr ⟨?_, hrest⟩
          intro kv hkv
          rw [h2]
          exact hk' kv hkv
        · rw [if_neg h2]
          refine List.pairwise_cons.mpr ⟨?_, mapInsert_pairwise hrest⟩
          intro kv hkv
          rcases mapInsert_mem hkv with h | h
          · exact hk' kv h
          · rw [h]
            rcases bytesLt_total h2 with hl | hl
            · exact absurd hl (by simp [h1])
            · exact hl

/-! ## Lemmas: the child loops on encoded input -/

theorem isEmpty_append_false {l r : Bytes} (h : l ≠ []) : (l ++ r).isEmpty = false := by
  cases l with
  | nil => exact absurd rfl h
  | cons x xs => rfl

theorem decodeItems_encodeList (fuel : Nat) :
    ∀ (l : List RespFrame),
      (∀ c ∈ l, ∀ rest : Bytes,
        (decodeF fuel (encodeFrame c ++ rest) = .ok c rest ∨
         decodeF fuel (encodeFrame c ++ rest) = .err .NotComplete (encodeFrame c ++ rest)) ∧
        (frameDepth c ≤ fuel → decodeF fuel (encodeFrame c ++ rest) = .ok c rest)) →
      ∀ rest : Bytes,
        (decodeItems (decodeF fuel) l.length (encodeFrameList l ++ rest) = .ok l rest ∨
         ∃ r, decodeItems (decodeF fuel) l.length (encodeFrameList l ++ rest) =
           .err .NotComplete r) ∧
        (frameDepthList l ≤ fuel →
          decodeItems (decodeF fuel) l.length (encodeFrameList l ++ rest) = .ok l rest) := by
  intro l
  induction l with
  | nil =>
      intro _ rest
      exact ⟨Or.inl rfl, fun _ => rfl⟩
  | cons c cs ih =>
      intro H rest
      have Hc := H c (by simp)
      have Hcs := ih (fun x hx => H x (by simp [hx]))
      have hshape : encodeFrameList (c :: cs) ++ rest =
          encodeFrame c ++ (encodeFrameList cs ++ rest) := by
        rw [encodeFrameList_cons, List.append_assoc]
      have hne : (encodeFrame c ++ (encodeFrameList cs ++ rest)).isEmpty = false :=
        isEmpty_append_false (encodeFrame_ne_nil c)
      have hstep : decodeItems (decodeF fuel) (c :: cs).length (encodeFrameList (c :: cs) ++ rest) =
          (match decodeF fuel (encodeFrame c ++ (encodeFrameList cs ++ rest)) with
           | .err e r => .err e r
           | .ok f r =>
               match decodeItems (decodeF fuel) cs.length r with
               | .err e r2 => .err e r2
               | .ok fs r2 => .ok (f :: fs) r2) := by
        rw [hshape]
        rw [show (c :: cs).length = cs.length + 1 from rfl, decodeItems, if_neg (by simp [hne])]
      constructor
      · rcases (Hc (encodeFrameList cs ++ rest)).1 with hok | hnc
        · rcases (Hcs (rest)).1 with hok2 | ⟨r, hnc2⟩
          · exact Or.inl (by simp only [hstep, hok, hok2])
          · exact Or.inr ⟨r, by simp only [hstep, hok, hnc2]⟩
        · exact Or.inr ⟨encodeFrame c ++ (encodeFrameList cs ++ rest),
            by simp only [hstep, hnc]⟩
      · intro hdep
        have hd1 : frameDepth c ≤ fuel := by
          have : frameDepth c ≤ frameDepthList (c :: cs) := by
            rw [frameDepthList]; omega
          omega
        have hd2 : frameDepthList cs ≤ fuel := by
          have : frameDepthList cs ≤ frameDepthList (c :: cs) := by
            rw [frameDepthList]; omega
          omega
        simp only [hstep, (Hc _).2 hd1, (Hcs rest).2 hd2]

theorem decodeEntries_encodeEntryList (fuel : Nat) :
    ∀ (m : List (Bytes × RespFrame)),
      (∀ kv ∈ m, ∀ rest : Bytes,
        (decodeF fuel (encodeFrame kv.2 ++ rest) = .ok kv.2 rest ∨
         decodeF fuel (encodeFrame kv.2 ++ rest) =
           .err .NotComplete (encodeFrame kv.2 ++ rest)) ∧
        (frameDepth kv.2 ≤ fuel → decodeF fuel (encodeFrame kv.2 ++ rest) = .ok kv.2 rest)) →
      (∀ kv ∈ m, crlfFree kv.1) →
      List.Pairwise (fun x y => bytesLt x.1 y.1 = true) m →
      ∀ (acc : List (Bytes × RespFrame)) (rest : Bytes),
        (∀ kv' ∈ acc, ∀ kv ∈ m, bytesLt kv'.1 kv.1 = true) →
        (decodeEntries (decodeF fuel) m.length (encodeEntryList m ++ rest) acc =
           .ok (acc ++ m) rest ∨
         ∃ r, decodeEntries (decodeF fuel) m.length (encodeEntryList m ++ rest) acc =
           .err .NotComplete r) ∧
        (frameDepthEntries m ≤ fuel →
          decodeEntries (decodeF fuel) m.length (encodeEntryList m ++ rest) acc =
            .ok (acc ++ m) rest) := by
  intro m
  induction m with
  | nil =>
      intro _ _ _ acc rest _
      exact ⟨Or.inl (by simp [decodeEntries, encodeEntryList]),
        fun _ => by simp [decodeEntries, encodeEntryList]⟩
  | cons kv m' ih =>
      intro H hkeys hsort acc rest hacc
      obtain ⟨k, v⟩ := kv
      have Hv := H (k, v) (by simp)
      have hkfree : crlfFree k := hkeys (k, v) (by simp)
      rcases List.pairwise_cons.mp hsort with ⟨hkm', hsort'⟩
      have hshape : encodeEntryList ((k, v) :: m') ++ rest =
          43 :: (k ++ 13 :: 10 :: (encodeFrame v ++ (encodeEntryList m' ++ rest))) := by
        rw [encodeEntryList_cons, crlf]
        simp
      have hkey := simpleStringDecode_ok (encodeFrame v ++ (encodeEntryList m' ++ rest))
        (crlfFree_noPair_tag (by omega) hkfree)
      have hne2 : (encodeFrame v ++ (encodeEntryList m' ++ rest)).isEmpty = false :=
        isEmpty_append_false (encodeFrame_ne_nil v)
      have hstep : decodeEntries (decodeF fuel) ((k, v) :: m').length
          (encodeEntryList ((k, v) :: m') ++ rest) acc =
          (match decodeF fuel (encodeFrame v ++ (encodeEntryList m' ++ rest)) with
           | .err e r => .err e r
           | .ok v2 rest2 =>
               decodeEntries (decodeF fuel) m'.length rest2 (mapInsert k v2 acc)) := by
        rw [hshape]
        rw [show ((k, v) :: m').length = m'.length + 1 from rfl, decodeEntries,
          if_neg (by simp), hkey]
        simp only [hne2, Bool.false_eq_true, if_false]
      have hinst : mapInsert k v acc = acc ++ [(k, v)] := by
        apply mapInsert_append
        intro kv' hkv'
        exact hacc kv' hkv' (k, v) (by simp)
      have hacc' : ∀ kv' ∈ acc ++ [(k, v)], ∀ kv2 ∈ m', bytesLt kv'.1 kv2.1 = true := by
        intro kv' hkv' kv2 hkv2
        rcases List.mem_append.mp hkv' with h | h
        · exact hacc kv' h kv2 (by simp [hkv2])
        · simp at h
          rw [h]
          exact hkm' kv2 hkv2
      have ihm := ih (fun x hx => H x (by simp [hx])) (fun x hx => hkeys x (by simp [hx]))
        hsort' (acc ++ [(k, v)]) rest hacc'
      have hfinal : (acc ++ [(k, v)]) ++ m' = acc ++ ((k, v) :: m') := by simp
      constructor
      · rcases (Hv (encodeEntryList m' ++ rest)).1 with hok | hnc
        · rcases ihm.1 with hok2 | ⟨r, hnc2⟩
          · refine Or.inl ?_
            simp only [hstep, hok, hinst, hok2, hfinal]
          · exact Or.inr ⟨r, by simp only [hstep, hok, hinst, hnc2]⟩
        · exact Or.inr ⟨encodeFrame v ++ (encodeEntryList m' ++ rest),
            by simp only [hstep, hnc]⟩
      · intro hdep
        have hd1 : frameDepth v ≤ fuel := by
          have : frameDepth v ≤ frameDepthEntries ((k, v) :: m') := by
            simp [frameDepthEntries]
          omega
        have hd2 : frameDepthEntries m' ≤ fuel := by
          have : frameDepthEntries m' ≤ frameDepthEntries ((k, v) :: m') := by
            simp [frameDepthEntries]
          omega
        simp only [hstep, (Hv _).2 hd1, hinst, ihm.2 hd2, hfinal]

/-! ## The round-trip theorem -/

theorem drop_tag_header {t : Nat} {dig X : Bytes} :
    (t :: (dig ++ 13 :: 10 :: X)).drop (dig.length + 1 + 2) = X := by
  rw [show (t :: (dig ++ 13 :: 10 :: X) : Bytes) = (t :: dig) ++ 13 :: 10 :: X by simp,
    show dig.length + 1 + 2 = (t :: dig).length + 2 by simp]
  exact drop_header

theorem parseLength_ok' {t : Nat} (ht : t ≠ 13) (n : Nat) (X : Bytes)
    (hn : (n : Int) ≤ i64Max) :
    parseLength (t :: (natToDec n ++ 13 :: 10 :: X)) [t] =
      .ok ((natToDec n).length + 1, (n : Int)) := by
  have h := parseLength_ok ht n X hn
  rw [show ((t :: natToDec n) ++ 13 :: 10 :: X : Bytes) =
    t :: (natToDec n ++ 13 :: 10 :: X) by simp] at h
  exact h

theorem decode_encode_main {ab : Bool} {f : RespFrame} (h : WFFrame ab f) :
    ∀ (fuel : Nat) (rest : Bytes),
      (decodeF fuel (encodeFrame f ++ rest) = .ok f rest ∨
       decodeF fuel (encodeFrame f ++ rest) = .err .NotComplete (encodeFrame f ++ rest)) ∧
      (frameDepth f ≤ fuel → decodeF fuel (encodeFrame f ++ rest) = .ok f rest) := by
  induction h with
  | @simpleString ab s hfree =>
      intro fuel rest
      cases fuel with
      | zero =>
          refine ⟨Or.inr (decodeF_zero _), fun hd => ?_⟩
          simp [frameDepth] at hd
      | succ fuel =>
          have hsh : encodeFrame (RespFrame.SimpleString s) ++ rest =
              43 :: (s ++ 13 :: 10 :: rest) := by simp [encodeFrame, crlf]
          rw [hsh, decodeF_succ_simpleString,
            simpleStringDecode_ok rest (crlfFree_noPair_tag (by omega) hfree)]
          exact ⟨Or.inl rfl, fun _ => rfl⟩
  | @error ab s hfree =>
      intro fuel rest
      cases fuel with
      | zero =>
          refine ⟨Or.inr (decodeF_zero _), fun hd => ?_⟩
          simp [frameDepth] at hd
      | succ fuel =>
          have hsh : encodeFrame (RespFrame.Error s) ++ rest =
              45 :: (s ++ 13 :: 10 :: rest) := by simp [encodeFrame, crlf]
          rw [hsh, decodeF_succ_error,
            simpleErrorDecode_ok rest (crlfFree_noPair_tag (by omega) hfree)]
          exact ⟨Or.inl rfl, fun _ => rfl⟩
  | @integer ab i h1 h2 =>
      intro fuel rest
      cases fuel with
      | zero =>
          refine ⟨Or.inr (decodeF_zero _), fun hd => ?_⟩
          simp [frameDepth] at hd
      | succ fuel =>
          have hsh : encodeFrame (RespFrame.Integer i) ++ rest =
              58 :: (((if i < 0 then ([] : Bytes) else [43]) ++ intDisplay i) ++
                13 :: 10 :: rest) := by simp [encodeFrame, crlf]
          rw [hsh, decodeF_succ_integer, i64Decode_ok rest h1 h2]
          exact ⟨Or.inl rfl, fun _ => rfl⟩
  | @bulkString ab d hd hlen =>
      intro fuel rest
      cases fuel with
      | zero =>
          refine ⟨Or.inr (decodeF_zero _), fun hdp => ?_⟩
          simp [frameDepth] at hdp
      | succ fuel =>
          have hsh : encodeFrame (RespFrame.BulkString (some d)) ++ rest =
              36 :: (natToDec d.length ++ 13 :: 10 :: (d ++ 13 :: 10 :: rest)) := by
            simp [encodeFrame, crlf]
          obtain ⟨er, her⟩ := extractFixedData_sentinel_err (t := 36) d.length
            (13 :: 10 :: (d ++ 13 :: 10 :: rest))
          have hnull : respNullBulkStringDecode
              (36 :: (natToDec d.length ++ 13 :: 10 :: (d ++ 13 :: 10 :: rest))) =
              .err er (36 :: (natToDec d.length ++ 13 :: 10 :: (d ++ 13 :: 10 :: rest))) := her
          rw [hsh, decodeF_succ_bulk]
          simp only [hnull, bulkStringDecode_ok rest hd hlen]
          exact ⟨Or.inl trivial, fun _ => trivial⟩
  | @nullBulkString ab =>
      intro fuel rest
      cases fuel with
      | zero =>
          refine ⟨Or.inr (decodeF_zero _), fun hd => ?_⟩
          simp [frameDepth] at hd
      | succ fuel =>
          have hsh : encodeFrame RespFrame.NullBulkString ++ rest =
              36 :: (45 :: 49 :: 13 :: 10 :: rest) := by simp [encodeFrame]
          have hok : respNullBulkStringDecode (36 :: (45 :: 49 :: 13 :: 10 :: rest)) =
              .ok () rest := by
            have := extractFixedData_ok [36, 45, 49, 13, 10] rest
            rw [show ([36, 45, 49, 13, 10] ++ rest : Bytes) =
              36 :: (45 :: 49 :: 13 :: 10 :: rest) by simp] at this
            exact this
          rw [hsh, decodeF_succ_bulk]
          simp only [hok]
          exact ⟨Or.inl trivial, fun _ => trivial⟩
  | @nullArray ab =>
      intro fuel rest
      cases fuel with
      | zero =>
          refine ⟨Or.inr (decodeF_zero _), fun hd => ?_⟩
          simp [frameDepth] at hd
      | succ fuel =>
          have hsh : encodeFrame RespFrame.NullArray ++ rest =
              42 :: (45 :: 49 :: 13 :: 10 :: rest) := by simp [encodeFrame]
          have hok : respNullArrayDecode (42 :: (45 :: 49 :: 13 :: 10 :: rest)) =
              .ok () rest := by
            have := extractFixedData_ok [42, 45, 49, 13, 10] rest
            rw [show ([42, 45, 49, 13, 10] ++ rest : Bytes) =
              42 :: (45 :: 49 :: 13 :: 10 :: rest) by simp] at this
            exact this
          rw [hsh, decodeF_succ_array]
          simp only [hok]
          exact ⟨Or.inl trivial, fun _ => trivial⟩
  | @null ab =>
      intro fuel rest
      cases fuel with
      | zero =>
          refine ⟨Or.inr (decodeF_zero _), fun hd => ?_⟩
          simp [frameDepth] at hd
      | succ fuel =>
          have hsh : encodeFrame RespFrame.Null ++ rest = 95 :: (13 :: 10 :: rest) := by
            simp [encodeFrame]
          have hok : respNullDecode (95 :: (13 :: 10 :: rest)) = .ok () rest := by
            have := extractFixedData_ok [95, 13, 10] rest
            rw [show ([95, 13, 10] ++ rest : Bytes) = 95 :: (13 :: 10 :: rest) by simp] at this
            exact this
          rw [hsh, decodeF_succ_null]
          simp only [hok]
          exact ⟨Or.inl trivial, fun _ => trivial⟩
  | @boolean b =>
      intro fuel rest
      cases fuel with
      | zero =>
          refine ⟨Or.inr (decodeF_zero _), fun hd => ?_⟩
          simp [frameDepth] at hd
      | succ fuel =>
          have hsh : encodeFrame (RespFrame.Boolean b) ++ rest =
              35 :: ((if b then 116 else 102) :: 13 :: 10 :: rest) := by
            cases b <;> simp [encodeFrame]
          have hok := boolDecode_ok b rest
          rw [show ([35, if b then 116 else 102, 13, 10] ++ rest : Bytes) =
            35 :: ((if b then 116 else 102) :: 13 :: 10 :: rest) by simp] at hok
          rw [hsh, decodeF_succ_boolean]
          simp only [hok]
          exact ⟨Or.inl trivial, fun _ => trivial⟩
  | @array ab l hlen hwf ih =>
      intro fuel rest
      cases fuel with
      | zero =>
          refine ⟨Or.inr (decodeF_zero _), fun hd => ?_⟩
          simp [frameDepth] at hd
      | succ fuel =>
          have hsh : encodeFrame (RespFrame.Array (some l)) ++ rest =
              42 :: (natToDec l.length ++ 13 :: 10 :: (encodeFrameList l ++ rest)) := by
            simp [encodeFrame, crlf]
          obtain ⟨er, her⟩ := extractFixedData_sentinel_err (t := 42) l.length
            (13 :: 10 :: (encodeFrameList l ++ rest))
          have hnull : respNullArrayDecode
              (42 :: (natToDec l.length ++ 13 :: 10 :: (encodeFrameList l ++ rest))) =
              .err er (42 :: (natToDec l.length ++ 13 :: 10 :: (encodeFrameList l ++ rest))) := her
          have hpl := parseLength_ok' (t := 42) (by omega) l.length (encodeFrameList l ++ rest) hlen
          have hdrop : (42 :: (natToDec l.length ++ 13 :: 10 :: (encodeFrameList l ++ rest))).drop
              ((natToDec l.length).length + 1 + 2) = encodeFrameList l ++ rest := drop_tag_header
          have hitems := decodeItems_encodeList fuel l (fun c hc => ih c hc fuel) rest
          have hneg : ¬ ((l.length : Int) < 0) := by omega
          rw [hsh, decodeF_succ_array]
          refine ⟨?_, ?_⟩
          · rcases hitems.1 with hok | ⟨r, hnc⟩
            · refine Or.inl ?_
              simp only [hnull, respArrayDecode, her, hpl, if_neg hneg, Int.toNat_natCast,
                hdrop, hok]
            · refine Or.inr ?_
              simp only [hnull, respArrayDecode, her, hpl, if_neg hneg, Int.toNat_natCast,
                hdrop, hnc]
          · intro hdep
            have hE : frameDepthList l ≤ fuel := by
              simp [frameDepth] at hdep
              omega
            simp only [hnull, respArrayDecode, her, hpl, if_neg hneg, Int.toNat_natCast,
              hdrop, hitems.2 hE]
  | @map ab m hlen hkeys hsort hwf ih =>
      intro fuel rest
      cases fuel with
      | zero =>
          refine ⟨Or.inr (decodeF_zero _), fun hd => ?_⟩
          simp [frameDepth] at hd
      | succ fuel =>
          have hsh : encodeFrame (RespFrame.Map m) ++ rest =
              37 :: (natToDec m.length ++ 13 :: 10 :: (encodeEntryList m ++ rest)) := by
            simp [encodeFrame, crlf]
          have hpl := parseLength_ok' (t := 37) (by omega) m.length (encodeEntryList m ++ rest) hlen
          have hdrop : (37 :: (natToDec m.length ++ 13 :: 10 :: (encodeEntryList m ++ rest))).drop
              ((natToDec m.length).length + 1 + 2) = encodeEntryList m ++ rest := drop_tag_header
          have hitems := decodeEntries_encodeEntryList fuel m (fun kv hkv => ih kv hkv fuel)
            hkeys hsort [] rest (by intro kv' hkv'; simp at hkv')
          rw [hsh, decodeF_succ_map]
          refine ⟨?_, ?_⟩
          · rcases hitems.1 with hok | ⟨r, hnc⟩
            · refine Or.inl ?_
              simp only [respMapDecode, hpl, Int.toNat_natCast, hdrop, hok,
                List.nil_append]
            · refine Or.inr ?_
              simp only [respMapDecode, hpl, Int.toNat_natCast, hdrop, hnc]
          · intro hdep
            have hE : frameDepthEntries m ≤ fuel := by
              simp [frameDepth] at hdep
              omega
            simp only [respMapDecode, hpl, Int.toNat_natCast, hdrop, hitems.2 hE,
              List.nil_append]
  | @set ab l hlen hwf ih =>
      intro fuel rest
      cases fuel with
      | zero =>
          refine ⟨Or.inr (decodeF_zero _), fun hd => ?_⟩
          simp [frameDepth] at hd
      | succ fuel =>
          have hsh : encodeFrame (RespFrame.Set l) ++ rest =
              126 :: (natToDec l.length ++ 13 :: 10 :: (encodeFrameList l ++ rest)) := by
            simp [encodeFrame, crlf]
          have hpl := parseLength_ok' (t := 126) (by omega) l.length (encodeFrameList l ++ rest) hlen
          have hdrop : (126 :: (natToDec l.length ++ 13 :: 10 :: (encodeFrameList l ++ rest))).drop
              ((natToDec l.length).length + 1 + 2) = encodeFrameList l ++ rest := drop_tag_header
          have hitems := decodeItems_encodeList fuel l (fun c hc => ih c hc fuel) rest
          rw [hsh, decodeF_succ_set]
          refine ⟨?_, ?_⟩
          · rcases hitems.1 with hok | ⟨r, hnc⟩
            · refine Or.inl ?_
              simp only [respSetDecode, hpl, Int.toNat_natCast, hdrop, hok]
            · refine Or.inr ?_
              simp only [respSetDecode, hpl, Int.toNat_natCast, hdrop, hnc]
          · intro hdep
            have hE : frameDepthList l ≤ fuel := by
              simp [frameDepth] at hdep
              omega
            simp only [respSetDecode, hpl, Int.toNat_natCast, hdrop, hitems.2 hE]

theorem frameDepthList_le {l : List RespFrame}
    (H : ∀ c ∈ l, frameDepth c ≤ (encodeFrame c).length) :
    frameDepthList l ≤ (encodeFrameList l).length := by
  induction l with
  | nil => simp [frameDepthList, encodeFrameList]
  | cons c cs ih =>
      have h1 := H c (by simp)
      have h2 := ih (fun x hx => H x (by simp [hx]))
      rw [frameDepthList, encodeFrameList_cons, List.length_append]
      omega

theorem frameDepthEntries_le {m : List (Bytes × RespFrame)}
    (H : ∀ kv ∈ m, frameDepth kv.2 ≤ (encodeFrame kv.2).length) :
    frameDepthEntries m ≤ (encodeEntryList m).length := by
  induction m with
  | nil => simp [frameDepthEntries, encodeEntryList]
  | cons kv m' ih =>
      obtain ⟨k, v⟩ := kv
      have h1 := H (k, v) (by simp)
      have h2 := ih (fun x hx => H x (by simp [hx]))
      rw [frameDepthEntries, encodeEntryList_cons]
      simp only [List.length_append] at *
      simp at h1 ⊢
      omega

theorem frameDepth_le {ab : Bool} {f : RespFrame} (h : WFFrame ab f) :
    frameDepth f ≤ (encodeFrame f).length := by
  induction h with
  | @simpleString ab s hfree => simp [frameDepth, encodeFrame]
  | @error ab s hfree => simp [frameDepth, encodeFrame]
  | @integer ab i h1 h2 => simp [frameDepth, encodeFrame]
  | @bulkString ab d hd hlen => simp [frameDepth, encodeFrame]
  | @nullBulkString ab => simp [frameDepth, encodeFrame]
  | @nullArray ab => simp [frameDepth, encodeFrame]
  | @null ab => simp [frameDepth, encodeFrame]
  | @boolean b => simp [frameDepth, encodeFrame]
  | @array ab l hlen hwf ih =>
      have := frameDepthList_le ih
      rw [frameDepth, encodeFrame]
      simp
      omega
  | @map ab m hlen hkeys hsort hwf ih =>
      have := frameDepthEntries_le ih
      rw [frameDepth, encodeFrame]
      simp
      omega
  | @set ab l hlen hwf ih =>
      have := frameDepthList_le ih
      rw [frameDepth, encodeFrame]
      simp
      omega

/-- Decoding the exact encoding of a well-formed frame (with the fuel the
top-level entry point supplies) yields the frame back with the whole buffer
consumed. -/
theorem respFrameDecode_encode {ab : Bool} {f : RespFrame} (h : WFFrame ab f) :
    respFrameDecode (encodeFrame f) = .ok f [] := by
  have hm := (decode_encode_main h ((encodeFrame f).length + 1) []).2
    (by have := frameDepth_le h; omega)
  rw [List.append_nil] at hm
  exact hm

/-! ## Lemmas: strict prefixes -/

theorem strict_prefix_facts {p x : Bytes} (hp : p <+: x) (hne : p ≠ x) :
    p = x.take p.length ∧ p.length < x.length := by
  refine ⟨List.prefix_iff_eq_take.mp hp, ?_⟩
  rcases Nat.lt_or_ge p.length x.length with h | h
  · exact h
  · have heq : p.length = x.length := le_antisymm hp.length_le h
    exact absurd (hp.eq_of_length heq) hne

theorem noPair_of_prefix {p x : Bytes} (hx : noPair x = true) (hp : p <+: x) :
    noPair p = true := by
  obtain ⟨t, ht⟩ := hp
  exact noPair_of_append_left (ht ▸ hx)

theorem prefix_append_cases {q a b : Bytes} (h : q <+: a ++ b) :
    (∃ q2, q = a ++ q2 ∧ q2 <+: b) ∨ (q <+: a ∧ q ≠ a) := by
  induction a generalizing q with
  | nil => exact Or.inl ⟨q, by simp, by simpa using h⟩
  | cons x a' ih =>
      cases q with
      | nil => exact Or.inr ⟨List.nil_prefix, by simp⟩
      | cons y q' =>
          rw [List.cons_append, List.cons_prefix_cons] at h
          obtain ⟨rfl, hq'⟩ := h
          rcases ih hq' with ⟨q2, hEq, hq2⟩ | ⟨hpre, hne⟩
          · exact Or.inl ⟨q2, by rw [List.cons_append, hEq], hq2⟩
          · refine Or.inr ⟨List.cons_prefix_cons.mpr ⟨rfl, hpre⟩, ?_⟩
            intro hc
            injection hc with _ hc2
            exact hne hc2

theorem noPair_strict_prefix_simple {t : Nat} {body p : Bytes}
    (hnp : noPair (t :: body) = true)
    (hp : p <+: (t :: body) ++ [13, 10]) (hne : p ≠ (t :: body) ++ [13, 10]) :
    noPair p = true := by
  obtain ⟨hpeq, hlt⟩ := strict_prefix_facts hp hne
  have hle : p.length ≤ ((t :: body) ++ [13]).length := by
    simp at hlt ⊢
    omega
  have hpq : p = ((t :: body) ++ [13]).take p.length := by
    conv_lhs => rw [hpeq]
    rw [show ((t :: body) ++ [13, 10] : Bytes) = ((t :: body) ++ [13]) ++ [10] by simp,
      List.take_append_of_le_length hle]
  rw [hpq]
  exact noPair_take (noPair_append_cr hnp) _

theorem noPair_strict_prefix_cr {c p : Bytes} (hnp : noPair c = true)
    (hp : p <+: c ++ [13, 10]) (hne : p ≠ c ++ [13, 10]) :
    noPair p = true := by
  obtain ⟨hpeq, hlt⟩ := strict_prefix_facts hp hne
  have hle : p.length ≤ (c ++ [13]).length := by
    simp at hlt ⊢
    omega
  have hpq : p = (c ++ [13]).take p.length := by
    conv_lhs => rw [hpeq]
    rw [show (c ++ [13, 10] : Bytes) = (c ++ [13]) ++ [10] by simp,
      List.take_append_of_le_length hle]
  rw [hpq]
  exact noPair_take (noPair_append_cr hnp) _

theorem prefix_tagged_header {t n : Nat} {payload p : Bytes} (ht : t ≠ 13)
    (hp : p <+: t :: (natToDec n ++ 13 :: 10 :: payload))
    (hne : p ≠ t :: (natToDec n ++ 13 :: 10 :: payload)) :
    noPair p = true ∨
    (∃ q, p = t :: (natToDec n ++ 13 :: 10 :: q) ∧ q <+: payload ∧ q ≠ payload) := by
  have hnp : noPair (t :: natToDec n) = true := by
    apply noPair_of_no13
    intro b hb
    rcases List.mem_cons.mp hb with hb | hb
    · exact hb ▸ ht
    · exact natToDec_no13 n b hb
  have hsh : t :: (natToDec n ++ 13 :: 10 :: payload) =
      ((t :: natToDec n) ++ [13, 10]) ++ payload := by simp
  rw [hsh] at hp hne
  rcases prefix_append_cases hp with ⟨q, rfl, hq⟩ | ⟨hpre, hneq⟩
  · right
    refine ⟨q, by simp, hq, ?_⟩
    intro hc
    exact hne (by rw [hc])
  · left
    exact noPair_strict_prefix_cr hnp hpre hneq

theorem sentinel_err_of_cons {t : Nat} {q : Bytes}
    (h : q = [] ∨ ∃ b q', q = b :: q' ∧ b ≠ 45) :
    ∃ er, extractFixedData (t :: q) [t, 45, 49, 13, 10] = .err er (t :: q) := by
  rcases h with rfl | ⟨b, q', rfl, hb⟩
  · exact ⟨_, extractFixedData_err_shape notPrefix_sentinel_single⟩
  · exact ⟨_, extractFixedData_err_shape (notPrefix_sentinel q' hb)⟩

theorem second_byte_digit {n : Nat} {X q : Bytes} (hq : q <+: natToDec n ++ X) :
    q = [] ∨ ∃ b q', q = b :: q' ∧ b ≠ 45 := by
  cases q with
  | nil => exact Or.inl rfl
  | cons y q' =>
      obtain ⟨d0, ds, hds, h1, h2⟩ := natToDec_cons n
      rw [hds, List.cons_append, List.cons_prefix_cons] at hq
      exact Or.inr ⟨y, q', rfl, by omega⟩

theorem decodeItems_prefix_nc (fuel : Nat) :
    ∀ (l : List RespFrame),
      (∀ c ∈ l, ∀ rest : Bytes,
        decodeF fuel (encodeFrame c ++ rest) = .ok c rest ∨
        decodeF fuel (encodeFrame c ++ rest) = .err .NotComplete (encodeFrame c ++ rest)) →
      (∀ c ∈ l, ∀ q, q <+: encodeFrame c → q ≠ encodeFrame c →
        decodeF fuel q = .err .NotComplete q) →
      ∀ q, q <+: encodeFrameList l → q ≠ encodeFrameList l →
        ∃ r, decodeItems (decodeF fuel) l.length q = .err .NotComplete r := by
  intro l
  induction l with
  | nil =>
      intro _ _ q hq hne
      rw [show encodeFrameList [] = [] from rfl] at hq hne
      exact absurd (List.prefix_nil.mp hq) hne
  | cons c cs ih =>
      intro H Hpre q hq hne
      rcases hqe : q with _ | ⟨y, q'⟩
      · exact ⟨[], by rw [show (c :: cs).length = cs.length + 1 from rfl, decodeItems]; rfl⟩
      · rw [← hqe]
        have hq0 : q.isEmpty = false := by rw [hqe]; rfl
        have hstep : decodeItems (decodeF fuel) (c :: cs).length q =
            (match decodeF fuel q with
             | .err e r => .err e r
             | .ok f r =>
                 match decodeItems (decodeF fuel) cs.length r with
                 | .err e r2 => .err e r2
                 | .ok fs r2 => .ok (f :: fs) r2) := by
          rw [show (c :: cs).length = cs.length + 1 from rfl, decodeItems,
            if_neg (by simp [hq0])]
        rw [encodeFrameList_cons] at hq hne
        rcases prefix_append_cases hq with ⟨q2, rfl, hq2⟩ | ⟨hpre, hneq⟩
        · have hne2 : q2 ≠ encodeFrameList cs := fun hc => hne (by rw [hc])
          rcases H c (by simp) q2 with hok | hnc
          · obtain ⟨r, hr⟩ := ih (fun x hx => H x (by simp [hx]))
              (fun x hx => Hpre x (by simp [hx])) q2 hq2 hne2
            exact ⟨r, by simp only [hstep, hok, hr]⟩
          · exact ⟨encodeFrame c ++ q2, by simp only [hstep, hnc]⟩
        · have hd := Hpre c (by simp) q hpre hneq
          exact ⟨q, by simp only [hstep, hd]⟩

theorem decodeEntries_prefix_nc (fuel : Nat) :
    ∀ (m : List (Bytes × RespFrame)),
      (∀ kv ∈ m, ∀ rest : Bytes,
        decodeF fuel (encodeFrame kv.2 ++ rest) = .ok kv.2 rest ∨
        decodeF fuel (encodeFrame kv.2 ++ rest) =
          .err .NotComplete (encodeFrame kv.2 ++ rest)) →
      (∀ kv ∈ m, ∀ q, q <+: encodeFrame kv.2 → q ≠ encodeFrame kv.2 →
        decodeF fuel q = .err .NotComplete q) →
      (∀ kv ∈ m, crlfFree kv.1) →
      ∀ q acc, q <+: encodeEntryList m → q ≠ encodeEntryList m →
        ∃ r, decodeEntries (decodeF fuel) m.length q acc = .err .NotComplete r := by
  intro m
  induction m with
  | nil =>
      intro _ _ _ q acc hq hne
      rw [show encodeEntryList [] = [] from rfl] at hq hne
      exact absurd (List.prefix_nil.mp hq) hne
  | cons kv m' ih =>
      obtain ⟨k, v⟩ := kv
      intro H Hpre hkeys q acc hq hne
      have hkfree : crlfFree k := hkeys (k, v) (by simp)
      have hknp : noPair (43 :: k) = true := crlfFree_noPair_tag (by omega) hkfree
      rcases hqe : q with _ | ⟨y, q'⟩
      · exact ⟨[], by rw [show ((k, v) :: m').length = m'.length + 1 from rfl, decodeEntries]; rfl⟩
      · rw [← hqe]
        have hq0 : q.isEmpty = false := by rw [hqe]; rfl
        have hstep : decodeEntries (decodeF fuel) ((k, v) :: m').length q acc =
            (match simpleStringDecode q with
             | .err e rest => .err e rest
             | .ok k2 rest =>
                 if rest.isEmpty then .err .NotComplete rest
                 else
                   match decodeF fuel rest with
                   | .err e r => .err e r
                   | .ok v2 rest2 =>
                       decodeEntries (decodeF fuel) m'.length rest2 (mapInsert k2 v2 acc)) := by
          rw [show ((k, v) :: m').length = m'.length + 1 from rfl, decodeEntries,
            if_neg (by simp [hq0])]
        have hshape : encodeEntryList ((k, v) :: m') =
            ((43 :: k) ++ [13, 10]) ++ (encodeFrame v ++ encodeEntryList m') := by
          rw [encodeEntryList_cons, crlf]
          simp
        rw [hshape] at hq hne
        rcases prefix_append_cases hq with ⟨q2, rfl, hq2⟩ | ⟨hpre, hneq⟩
        · -- the key is fully present
          have hkey : simpleStringDecode (((43 :: k) ++ [13, 10]) ++ q2) = .ok k q2 := by
            have := simpleStringDecode_ok q2 hknp
            rw [show (43 :: (k ++ 13 :: 10 :: q2) : Bytes) =
              ((43 :: k) ++ [13, 10]) ++ q2 by simp] at this
            exact this
          by_cases hq2nil : q2 = []
          · subst hq2nil
            refine ⟨[], ?_⟩
            simp only [hstep, hkey]
            rfl
          · have hq20 : q2.isEmpty = false := by
              cases q2 with
              | nil => exact absurd rfl hq2nil
              | cons a b => rfl
            rcases prefix_append_cases hq2 with ⟨q3, rfl, hq3⟩ | ⟨hpre2, hneq2⟩
            · have hne3 : q3 ≠ encodeEntryList m' := fun hc => hne (by rw [hc])
              rcases H (k, v) (by simp) q3 with hok | hnc
              · obtain ⟨r, hr⟩ := ih (fun x hx => H x (by simp [hx]))
                  (fun x hx => Hpre x (by simp [hx])) (fun x hx => hkeys x (by simp [hx]))
                  q3 (mapInsert k v acc) hq3 hne3
                refine ⟨r, ?_⟩
                simp only [hstep, hkey, hok, hr]
                rw [if_neg (by simp [hq20])]
              · refine ⟨encodeFrame v ++ q3, ?_⟩
                simp only [hstep, hkey, hnc]
                rw [if_neg (by simp [hq20])]
            · have hd := Hpre (k, v) (by simp) q2 hpre2 hneq2
              refine ⟨q2, ?_⟩
              simp only [hstep, hkey, hd]
              rw [if_neg (by simp [hq20])]
        · -- the cut is inside the key
          have hnp : noPair q = true := noPair_strict_prefix_cr hknp hpre hneq
          have hy : y = 43 := by
            have hp2 : y :: q' <+: 43 :: (k ++ [13, 10]) := by
              rw [← hqe,
                show (43 :: (k ++ [13, 10]) : Bytes) = (43 :: k) ++ [13, 10] by simp]
              exact hpre
            exact (List.cons_prefix_cons.mp hp2).1
          have hkd : simpleStringDecode q = .err .NotComplete q := by
            rw [simpleStringDecode, extractSimpleFrameData_nc hnp ?_]
            intro _
            rw [hqe, hy]
            exact isPrefixOf_tag _
          exact ⟨q, by simp only [hstep, hkd]⟩

/-! ## The prefix-atomicity theorem -/

theorem decode_prefix_aux {ab : Bool} {f : RespFrame} (h : WFFrame ab f) :
    ab = false → ∀ p, p <+: encodeFrame f → p ≠ encodeFrame f → ∀ fuel,
      decodeF fuel p = .err .NotComplete p := by
  induction h with
  | @simpleString ab s hfree =>
      intro hab p hp hne fuel
      cases fuel with
      | zero => exact decodeF_zero p
      | succ fuel =>
          have hsh : encodeFrame (RespFrame.SimpleString s) = (43 :: s) ++ [13, 10] := by
            simp [encodeFrame, crlf]
          rw [hsh] at hp hne
          have hnp : noPair p = true :=
            noPair_strict_prefix_cr (crlfFree_noPair_tag (by omega) hfree) hp hne
          cases p with
          | nil => exact decodeF_nil _
          | cons y q =>
              have hy : y = 43 := by
                rw [show ((43 :: s) ++ [13, 10] : Bytes) = 43 :: (s ++ [13, 10]) by simp] at hp
                exact (List.cons_prefix_cons.mp hp).1
              subst hy
              rw [decodeF_succ_simpleString, simpleStringDecode,
                extractSimpleFrameData_nc hnp (fun _ => isPrefixOf_tag _)]
  | @error ab s hfree =>
      intro hab p hp hne fuel
      cases fuel with
      | zero => exact decodeF_zero p
      | succ fuel =>
          have hsh : encodeFrame (RespFrame.Error s) = (45 :: s) ++ [13, 10] := by
            simp [encodeFrame, crlf]
          rw [hsh] at hp hne
          have hnp : noPair p = true :=
            noPair_strict_prefix_cr (crlfFree_noPair_tag (by omega) hfree) hp hne
          cases p with
          | nil => exact decodeF_nil _
          | cons y q =>
              have hy : y = 45 := by
                rw [show ((45 :: s) ++ [13, 10] : Bytes) = 45 :: (s ++ [13, 10]) by simp] at hp
                exact (List.cons_prefix_cons.mp hp).1
              subst hy
              rw [decodeF_succ_error, simpleErrorDecode,
                extractSimpleFrameData_nc hnp (fun _ => isPrefixOf_tag _)]
  | @integer ab i h1 h2 =>
      intro hab p hp hne fuel
      cases fuel with
      | zero => exact decodeF_zero p
      | succ fuel =>
          have hsh : encodeFrame (RespFrame.Integer i) =
              (58 :: ((if i < 0 then ([] : Bytes) else [43]) ++ intDisplay i)) ++ [13, 10] := by
            simp [encodeFrame, crlf]
          rw [hsh] at hp hne
          have hnp : noPair p = true := by
            refine noPair_strict_prefix_cr ?_ hp hne
            apply noPair_of_no13
            intro b hb
            rcases List.mem_cons.mp hb with hb | hb
            · omega
            · exact intBody_no13 i b hb
          cases p with
          | nil => exact decodeF_nil _
          | cons y q =>
              have hy : y = 58 := by
                rw [show ((58 :: ((if i < 0 then ([] : Bytes) else [43]) ++ intDisplay i)) ++
                  [13, 10] : Bytes) = 58 :: (((if i < 0 then ([] : Bytes) else [43]) ++
                  intDisplay i) ++ [13, 10]) by simp] at hp
                exact (List.cons_prefix_cons.mp hp).1
              subst hy
              rw [decodeF_succ_integer, i64Decode,
                extractSimpleFrameData_nc hnp (fun _ => isPrefixOf_tag _)]
  | @null ab =>
      intro hab p hp hne fuel
      cases fuel with
      | zero => exact decodeF_zero p
      | succ fuel =>
          have hlt : p.length < 3 := by
            have := (strict_prefix_facts hp hne).2
            simpa [encodeFrame] using this
          cases p with
          | nil => exact decodeF_nil _
          | cons y q =>
              have hy : y = 95 := by
                rw [show encodeFrame RespFrame.Null = 95 :: ([13, 10] : Bytes) by
                  simp [encodeFrame]] at hp
                exact (List.cons_prefix_cons.mp hp).1
              subst hy
              rw [decodeF_succ_null, respNullDecode, extractFixedData_nc (by simpa using hlt)]
  | @nullBulkString ab =>
      intro hab p hp hne fuel
      cases fuel with
      | zero => exact decodeF_zero p
      | succ fuel =>
          have hlt : p.length < 5 := by
            have := (strict_prefix_facts hp hne).2
            simpa [encodeFrame] using this
          have hnp : noPair p = true := by
            refine noPair_strict_prefix_cr (c := [36, 45, 49]) (by rfl) ?_ ?_
            · rw [show (([36, 45, 49] : Bytes) ++ [13, 10]) =
                encodeFrame RespFrame.NullBulkString by simp [encodeFrame]]
              exact hp
            · rw [show (([36, 45, 49] : Bytes) ++ [13, 10]) =
                encodeFrame RespFrame.NullBulkString by simp [encodeFrame]]
              exact hne
          cases p with
          | nil => exact decodeF_nil _
          | cons y q =>
              have hy : y = 36 := by
                rw [show encodeFrame RespFrame.NullBulkString =
                  36 :: ([45, 49, 13, 10] : Bytes) by simp [encodeFrame]] at hp
                exact (List.cons_prefix_cons.mp hp).1
              subst hy
              have hfx : extractFixedData (36 :: q) [36, 45, 49, 13, 10] =
                  .err .NotComplete (36 :: q) := extractFixedData_nc (by simpa using hlt)
              rw [decodeF_succ_bulk]
              have hbulk : bulkStringDecode (36 :: q) = .err .NotComplete (36 :: q) := by
                rw [bulkStringDecode]
                simp only [hfx, extractSimpleFrameData_nc hnp (fun _ => isPrefixOf_tag _)]
              simp only [show respNullBulkStringDecode (36 :: q) =
                .err .NotComplete (36 :: q) from hfx, hbulk]
  | @nullArray ab =>
      intro hab p hp hne fuel
      cases fuel with
      | zero => exact decodeF_zero p
      | succ fuel =>
          have hlt : p.length < 5 := by
            have := (strict_prefix_facts hp hne).2
            simpa [encodeFrame] using this
          have hnp : noPair p = true := by
            refine noPair_strict_prefix_cr (c := [42, 45, 49]) (by rfl) ?_ ?_
            · rw [show (([42, 45, 49] : Bytes) ++ [13, 10]) =
                encodeFrame RespFrame.NullArray by simp [encodeFrame]]
              exact hp
            · rw [show (([42, 45, 49] : Bytes) ++ [13, 10]) =
                encodeFrame RespFrame.NullArray by simp [encodeFrame]]
              exact hne
          cases p with
          | nil => exact decodeF_nil _
          | cons y q =>
              have hy : y = 42 := by
                rw [show encodeFrame RespFrame.NullArray =
                  42 :: ([45, 49, 13, 10] : Bytes) by simp [encodeFrame]] at hp
                exact (List.cons_prefix_cons.mp hp).1
              subst hy
              have hfx : extractFixedData (42 :: q) [42, 45, 49, 13, 10] =
                  .err .NotComplete (42 :: q) := extractFixedData_nc (by simpa using hlt)
              rw [decodeF_succ_array]
              have harr : respArrayDecode (decodeF fuel) (42 :: q) =
                  .err .NotComplete (42 :: q) := by
                rw [respArrayDecode]
                simp only [hfx, parseLength_nc hnp (fun _ => isPrefixOf_tag _)]
              simp only [show respNullArrayDecode (42 :: q) =
                .err .NotComplete (42 :: q) from hfx, harr]
  | @boolean b => intro hab; exact absurd hab (by simp)
  | @bulkString ab d hd hlen =>
      intro hab p hp hne fuel
      cases fuel with
      | zero => exact decodeF_zero p
      | succ fuel =>
          have hsh : encodeFrame (RespFrame.BulkString (some d)) =
              36 :: (natToDec d.length ++ 13 :: 10 :: (d ++ [13, 10])) := by
            simp [encodeFrame, crlf]
          rw [hsh] at hp hne
          cases p with
          | nil => exact decodeF_nil _
          | cons y q =>
              have hyq := List.cons_prefix_cons.mp hp
              have hy : y = 36 := hyq.1
              subst hy
              obtain ⟨er, her⟩ := sentinel_err_of_cons (t := 36) (second_byte_digit hyq.2)
              rw [decodeF_succ_bulk]
              rcases prefix_tagged_header (by omega) hp hne with hnpp | ⟨q2, hpe, hq2, hne2⟩
              · have hesf := @extractSimpleFrameData_nc (36 :: q) [36] 2 hnpp
                  (fun _ => isPrefixOf_tag (t := 36) q)
                have hbulk : bulkStringDecode (36 :: q) = .err .NotComplete (36 :: q) := by
                  rw [bulkStringDecode]
                  simp only [her, hesf]
                simp only [show respNullBulkStringDecode (36 :: q) =
                  .err er (36 :: q) from her, hbulk]
              · have hq2np : noPair q2 = true := noPair_strict_prefix_cr hd hq2 hne2
                have hdignp : noPair (36 :: natToDec d.length) = true := by
                  apply noPair_of_no13
                  intro b hb
                  rcases List.mem_cons.mp hb with hb | hb
                  · omega
                  · exact natToDec_no13 _ b hb
                have hesf : extractSimpleFrameData (36 :: q) [36] 2 = .error .NotComplete := by
                  rw [show (36 :: q : Bytes) = (36 :: natToDec d.length) ++ 13 :: 10 :: q2 by
                    rw [hpe]; simp]
                  exact extractSimpleFrameData_nc2 hdignp hq2np
                have hbulk : bulkStringDecode (36 :: q) = .err .NotComplete (36 :: q) := by
                  rw [bulkStringDecode]
                  simp only [her, hesf]
                simp only [show respNullBulkStringDecode (36 :: q) =
                  .err er (36 :: q) from her, hbulk]
  | @array ab l hlen hwf ih =>
      intro hab p hp hne fuel
      cases fuel with
      | zero => exact decodeF_zero p
      | succ fuel =>
          have hsh : encodeFrame (RespFrame.Array (some l)) =
              42 :: (natToDec l.length ++ 13 :: 10 :: encodeFrameList l) := by
            simp [encodeFrame, crlf]
          rw [hsh] at hp hne
          cases p with
          | nil => exact decodeF_nil _
          | cons y q =>
              have hyq := List.cons_prefix_cons.mp hp
              have hy : y = 42 := hyq.1
              subst hy
              obtain ⟨er, her⟩ := sentinel_err_of_cons (t := 42) (second_byte_digit hyq.2)
              rw [decodeF_succ_array]
              rcases prefix_tagged_header (by omega) hp hne with hnpp | ⟨q2, hpe, hq2, hne2⟩
              · have harr : respArrayDecode (decodeF fuel) (42 :: q) =
                    .err .NotComplete (42 :: q) := by
                  rw [respArrayDecode]
                  simp only [her, parseLength_nc hnpp (fun _ => isPrefixOf_tag _)]
                simp only [show respNullArrayDecode (42 :: q) =
                  .err er (42 :: q) from her, harr]
              · have hpl : parseLength (42 :: q) [42] =
                    .ok ((natToDec l.length).length + 1, (l.length : Int)) := by
                  rw [hpe]
                  exact parseLength_ok' (by omega) l.length q2 hlen
                have hdropq : (42 :: q).drop ((natToDec l.length).length + 1 + 2) = q2 := by
                  rw [hpe]
                  exact drop_tag_header
                obtain ⟨r, hr⟩ := decodeItems_prefix_nc fuel l
                  (fun c hc rest => (decode_encode_main (hwf c hc) fuel rest).1)
                  (fun c hc q3 hq3 hne3 => ih c hc hab q3 hq3 hne3 fuel) q2 hq2 hne2
                have harr : respArrayDecode (decodeF fuel) (42 :: q) =
                    .err .NotComplete (42 :: q) := by
                  rw [respArrayDecode]
                  simp only [her, hpl, Int.toNat_natCast, hdropq, hr,
                    if_neg (show ¬ ((l.length : Int) < 0) by omega)]
                simp only [show respNullArrayDecode (42 :: q) =
                  .err er (42 :: q) from her, harr]
  | @map ab m hlen hkeys hsort hwf ih =>
      intro hab p hp hne fuel
      cases fuel with
      | zero => exact decodeF_zero p
      | succ fuel =>
          have hsh : encodeFrame (RespFrame.Map m) =
              37 :: (natToDec m.length ++ 13 :: 10 :: encodeEntryList m) := by
            simp [encodeFrame, crlf]
          rw [hsh] at hp hne
          cases p with
          | nil => exact decodeF_nil _
          | cons y q =>
              have hyq := List.cons_prefix_cons.mp hp
              have hy : y = 37 := hyq.1
              subst hy
              rw [decodeF_succ_map]
              rcases prefix_tagged_header (by omega) hp hne with hnpp | ⟨q2, hpe, hq2, hne2⟩
              · have hmapd : respMapDecode (decodeF fuel) (37 :: q) =
                    .err .NotComplete (37 :: q) := by
                  rw [respMapDecode]
                  simp only [parseLength_nc hnpp (fun _ => isPrefixOf_tag _)]
                simp only [hmapd]
              · have hpl : parseLength (37 :: q) [37] =
                    .ok ((natToDec m.length).length + 1, (m.length : Int)) := by
                  rw [hpe]
                  exact parseLength_ok' (by omega) m.length q2 hlen
                have hdropq : (37 :: q).drop ((natToDec m.length).length + 1 + 2) = q2 := by
                  rw [hpe]
                  exact drop_tag_header
                obtain ⟨r, hr⟩ := decodeEntries_prefix_nc fuel m
                  (fun kv hkv rest => (decode_encode_main (hwf kv hkv) fuel rest).1)
                  (fun kv hkv q3 hq3 hne3 => ih kv hkv hab q3 hq3 hne3 fuel) hkeys q2 [] hq2 hne2
                have hmapd : respMapDecode (decodeF fuel) (37 :: q) =
                    .err .NotComplete (37 :: q) := by
                  rw [respMapDecode]
                  simp only [hpl, Int.toNat_natCast, hdropq, hr]
                simp only [hmapd]
  | @set ab l hlen hwf ih =>
      intro hab p hp hne fuel
      cases fuel with
      | zero => exact decodeF_zero p
      | succ fuel =>
          have hsh : encodeFrame (RespFrame.Set l) =
              126 :: (natToDec l.length ++ 13 :: 10 :: encodeFrameList l) := by
            simp [encodeFrame, crlf]
          rw [hsh] at hp hne
          cases p with
          | nil => exact decodeF_nil _
          | cons y q =>
              have hyq := List.cons_prefix_cons.mp hp
              have hy : y = 126 := hyq.1
              subst hy
              rw [decodeF_succ_set]
              rcases prefix_tagged_header (by omega) hp hne with hnpp | ⟨q2, hpe, hq2, hne2⟩
              · have hsetd : respSetDecode (decodeF fuel) (126 :: q) =
                    .err .NotComplete (126 :: q) := by
                  rw [respSetDecode]
                  simp only [parseLength_nc hnpp (fun _ => isPrefixOf_tag _)]
                simp only [hsetd]
              · have hpl : parseLength (126 :: q) [126] =
                    .ok ((natToDec l.length).length + 1, (l.length : Int)) := by
                  rw [hpe]
                  exact parseLength_ok' (by omega) l.length q2 hlen
                have hdropq : (126 :: q).drop ((natToDec l.length).length + 1 + 2) = q2 := by
                  rw [hpe]
                  exact drop_tag_header
                obtain ⟨r, hr⟩ := decodeItems_prefix_nc fuel l
                  (fun c hc rest => (decode_encode_main (hwf c hc) fuel rest).1)
                  (fun c hc q3 hq3 hne3 => ih c hc hab q3 hq3 hne3 fuel) q2 hq2 hne2
                have hsetd : respSetDecode (decodeF fuel) (126 :: q) =
                    .err .NotComplete (126 :: q) := by
                  rw [respSetDecode]
                  simp only [hpl, Int.toNat_natCast, hdropq, hr]
                simp only [hsetd]

/-- Every strict prefix of an encoded well-formed frame decodes to
`NotComplete` with the buffer untouched, at every fuel. -/
theorem decode_prefix_all {f : RespFrame} (h : WFFrame false f) :
    ∀ p, p <+: encodeFrame f → p ≠ encodeFrame f → ∀ fuel,
      decodeF fuel p = .err .NotComplete p :=
  decode_prefix_aux h rfl

/-! ## Lemmas: the backend's set store and `SAdd::execute` -/

theorem assocGet_assocPut_self {α : Type} (k : Bytes) (v : α) :
    ∀ l : List (Bytes × α), assocGet (assocPut l k v) k = some v := by
  intro l
  induction l with
  | nil => simp [assocPut, assocGet]
  | cons kv rest ih =>
      obtain ⟨k', v'⟩ := kv
      by_cases h : k = k'
      · simp [assocPut, h, assocGet]
      · simp [assocPut, h, assocGet, ih]

theorem mem_sAddInsert {inner : List Bytes} {m x : Bytes} :
    x ∈ sAddInsert inner m ↔ x = m ∨ x ∈ inner := by
  unfold sAddInsert
  split
  · rename_i h
    constructor
    · exact Or.inr
    · rintro (rfl | hx)
      · exact h
      · exact hx
  · exact List.mem_cons

theorem backendSAdd_spec (st : Backend) (key m : Bytes) :
    (backendSAdd st key m).1 = (if m ∈ innerOf st key then 0 else 1) ∧
    innerOf (backendSAdd st key m).2 key = sAddInsert (innerOf st key) m ∧
    (backendSAdd st key m).2.map = st.map ∧
    (backendSAdd st key m).2.hmap = st.hmap := by
  unfold backendSAdd innerOf sAddInsert
  by_cases h : m ∈ (assocGet st.hset key).getD []
  · simp [h, assocGet_assocPut_self]
  · simp [h, assocGet_assocPut_self]

theorem sAdd_foldl (key : Bytes) :
    ∀ (ms : List Bytes) (st : Backend) (acc : Int),
      (ms.foldl (fun (p : Int × Backend) m =>
          let r := backendSAdd p.2 key m
          (p.1 + r.1, r.2)) (acc, st)).1
        = acc + sAddNewCount (innerOf st key) ms ∧
      innerOf (ms.foldl (fun (p : Int × Backend) m =>
          let r := backendSAdd p.2 key m
          (p.1 + r.1, r.2)) (acc, st)).2 key
        = ms.foldl sAddInsert (innerOf st key) := by
  intro ms
  induction ms with
  | nil => intro st acc; simp [sAddNewCount]
  | cons m ms ih =>
      intro st acc
      obtain ⟨h1, h2, _, _⟩ := backendSAdd_spec st key m
      simp only [List.foldl_cons]
      obtain ⟨ihl, ihr⟩ := ih (backendSAdd st key m).2 (acc + (backendSAdd st key m).1)
      refine ⟨?_, ?_⟩
      · rw [show (ms.foldl (fun (p : Int × Backend) m =>
            let r := backendSAdd p.2 key m
            (p.1 + r.1, r.2))
            ((acc, st).1 + (backendSAdd (acc, st).2 key m).1,
              (backendSAdd (acc, st).2 key m).2)) =
            (ms.foldl (fun (p : Int × Backend) m =>
            let r := backendSAdd p.2 key m
            (p.1 + r.1, r.2))
            (acc + (backendSAdd st key m).1, (backendSAdd st key m).2)) from rfl]
        rw [ihl, h2, h1, sAddNewCount]
        push_cast
        ring
      · rw [show (ms.foldl (fun (p : Int × Backend) m =>
            let r := backendSAdd p.2 key m
            (p.1 + r.1, r.2))
            ((acc, st).1 + (backendSAdd (acc, st).2 key m).1,
              (backendSAdd (acc, st).2 key m).2)) =
            (ms.foldl (fun (p : Int × Backend) m =>
            let r := backendSAdd p.2 key m
            (p.1 + r.1, r.2))
            (acc + (backendSAdd st key m).1, (backendSAdd st key m).2)) from rfl]
        rw [ihr, h2]

theorem mem_foldl_sAddInsert :
    ∀ (ms inner : List Bytes) (x : Bytes), (x ∈ inner ∨ x ∈ ms) →
      x ∈ ms.foldl sAddInsert inner := by
  intro ms
  induction ms with
  | nil =>
      intro inner x h
      rcases h with h | h
      · exact h
      · simp at h
  | cons m ms ih =>
      intro inner x h
      rw [List.foldl_cons]
      apply ih
      rcases h with h | h
      · exact Or.inl (mem_sAddInsert.mpr (Or.inr h))
      · rcases List.mem_cons.mp h with rfl | h
        · exact Or.inl (mem_sAddInsert.mpr (Or.inl rfl))
        · exact Or.inr h

theorem sAddNewCount_eq_zero :
    ∀ (ms inner : List Bytes), (∀ m ∈ ms, m ∈ inner) → sAddNewCount inner ms = 0 := by
  intro ms
  induction ms with
  | nil => intro inner _; rfl
  | cons m ms ih =>
      intro inner h
      have hm : m ∈ inner := h m (List.mem_cons_self m ms)
      unfold sAddNewCount
      rw [if_pos hm, show sAddInsert inner m = inner by unfold sAddInsert; rw [if_pos hm],
        ih inner (fun x hx => h x (List.mem_cons_of_mem m hx))]

theorem sAddNewCount_congr :
    ∀ (ms i1 i2 : List Bytes), (∀ x ∈ ms, (x ∈ i1 ↔ x ∈ i2)) →
      sAddNewCount i1 ms = sAddNewCount i2 ms := by
  intro ms
  induction ms with
  | nil => intro _ _ _; rfl
  | cons m ms ih =>
      intro i1 i2 h
      have hm := h m (List.mem_cons_self m ms)
      unfold sAddNewCount
      congr 1
      · by_cases h1 : m ∈ i1
        · rw [if_pos h1, if_pos (hm.mp h1)]
        · rw [if_neg h1, if_neg (fun h2 => h1 (hm.mpr h2))]
      · apply ih
        intro x hx
        rw [mem_sAddInsert, mem_sAddInsert, h x (List.mem_cons_of_mem m hx)]

theorem sAddNewCount_nodup :
    ∀ (ms inner : List Bytes), ms.Nodup →
      sAddNewCount inner ms = (ms.filter (fun m => decide (m ∉ inner))).length := by
  intro ms
  induction ms with
  | nil => intro _ _; rfl
  | cons m ms ih =>
      intro inner h
      obtain ⟨hm, hnd⟩ := List.nodup_cons.mp h
      unfold sAddNewCount
      by_cases hmem : m ∈ inner
      · rw [if_pos hmem, show sAddInsert inner m = inner by
          unfold sAddInsert; rw [if_pos hmem], ih inner hnd]
        simp [List.filter_cons, hmem]
      · rw [if_neg hmem]
        have hc : sAddNewCount (sAddInsert inner m) ms = sAddNewCount inner ms := by
          apply sAddNewCount_congr
          intro x hx
          rw [mem_sAddInsert]
          constructor
          · rintro (rfl | hx')
            · exact absurd hx hm
            · exact hx'
          · exact Or.inr
        rw [hc, ih inner hnd]
        simp [List.filter_cons, hmem]
        omega

/-! ## Lemmas: `BTreeMap` construction stays sorted -/

theorem mapFromList_pairwise_from :
    ∀ (ins : List (Bytes × RespFrame)) (acc : List (Bytes × RespFrame)),
      List.Pairwise (fun a b => bytesLt a.1 b.1 = true) acc →
      List.Pairwise (fun a b => bytesLt a.1 b.1 = true)
        (ins.foldl (fun acc kv => mapInsert kv.1 kv.2 acc) acc) := by
  intro ins
  induction ins with
  | nil => intro acc h; exact h
  | cons kv ins ih =>
      intro acc h
      rw [List.foldl_cons]
      exact ih _ (mapInsert_pairwise h)

/-! ## Lemmas: no binary64 value lies between `10^-8` and the literal `1e-8`

The literal `1e-8` rounds `10^-8` *up* to `6044629098073146 / 2^79`, so the
source comparison `self.abs() < 1e-8` is not literally `|x| < 10^-8`.  The two
tests nevertheless agree on every representable double: a finite binary64 value
of magnitude at least `10^-8` has magnitude at least `6044629098073146 / 2^79`,
because for exponents `e >= -79` the quantity `|x| * 2^79` is an integer that a
bound below `2^79 / 10^8` forces up to `6044629098073146`, and for `e <= -80`
even the largest mantissa stays below `10^-8`. -/

theorem f64_gap {x : ℚ} (hx : isF64Value x) (h : 1 / 10 ^ 8 ≤ |x|) :
    f64Lit1em8 ≤ |x| := by
  obtain ⟨m, e, hm, _, rfl⟩ := hx
  have h2pos : (0 : ℚ) < (2 : ℚ) ^ e := zpow_pos (by norm_num) e
  have habs : |(m : ℚ) * (2 : ℚ) ^ e| = |(m : ℚ)| * (2 : ℚ) ^ e := by
    rw [abs_mul, abs_of_pos h2pos]
  by_cases he : -79 ≤ e
  · set k : ℕ := (e + 79).toNat with hk
    have hek : e = (k : ℤ) - 79 := by
      rw [hk]
      omega
    set M : ℤ := |m| * 2 ^ k with hM
    have hze : (2 : ℚ) ^ e = (2 : ℚ) ^ (k : ℕ) / 2 ^ (79 : ℕ) := by
      rw [hek, zpow_sub₀ (two_ne_zero), zpow_natCast]
      norm_num
    have hxe : |(m : ℚ)| * (2 : ℚ) ^ e = (M : ℚ) / 2 ^ (79 : ℕ) := by
      rw [hze, hM]
      push_cast
      ring
    have hMlb : (6044629098073146 : ℤ) ≤ M := by
      rw [habs, hxe] at h
      have hcross : (1 : ℚ) * 2 ^ (79 : ℕ) ≤ (M : ℚ) * 10 ^ 8 := by
        rw [div_le_div_iff (by norm_num) (by norm_num)] at h
        exact h
      have : (2 ^ 79 : ℤ) ≤ M * 10 ^ 8 := by exact_mod_cast (by linarith : ((2:ℚ) ^ (79:ℕ)) ≤ (M : ℚ) * 10 ^ 8)
      norm_num at this ⊢
      omega
    rw [habs, hxe, f64Lit1em8]
    have h79 : (0 : ℚ) < 2 ^ (79 : ℕ) := by positivity
    rw [div_le_div_iff h79 h79]
    have : (6044629098073146 : ℚ) ≤ (M : ℚ) := by exact_mod_cast hMlb
    nlinarith [h79]
  · have he80 : e ≤ -80 := by omega
    have hm' : |(m : ℚ)| ≤ 2 ^ 53 - 1 := by
      have : |m| ≤ 2 ^ 53 - 1 := by omega
      exact_mod_cast this
    have hz : (2 : ℚ) ^ e ≤ (2 : ℚ) ^ (-80 : ℤ) :=
      zpow_le_zpow_right₀ (by norm_num) he80
    have hsmall : |(m : ℚ)| * (2 : ℚ) ^ e ≤ ((2 : ℚ) ^ 53 - 1) * (2 : ℚ) ^ (-80 : ℤ) :=
      mul_le_mul hm' hz (le_of_lt h2pos) (by positivity)
    have hlt : ((2 : ℚ) ^ 53 - 1) * (2 : ℚ) ^ (-80 : ℤ) < 1 / 10 ^ 8 := by
      rw [zpow_neg]
      rw [show ((2 : ℚ) ^ (80 : ℤ)) = 2 ^ (80 : ℕ) by norm_num]
      norm_num
    rw [habs] at h
    exact absurd h (not_le.mpr (lt_of_le_of_lt hsmall hlt))

/-! ## Lemmas: the Integer decoder on out-of-range numerals -/

theorem digitsVal?_isSome_digits {ds : Bytes} {n : Nat} (h : digitsVal? ds = some n) :
    ∀ x ∈ ds, 48 ≤ x ∧ x ≤ 57 := by
  unfold digitsVal? at h
  split at h
  · exact absurd h (by simp)
  · split at h
    · rename_i hall
      intro x hx
      have hd := List.all_eq_true.mp hall x hx
      simp only [isDigitByte, Bool.and_eq_true, decide_eq_true_eq] at hd
      exact hd
    · exact absurd h (by simp)

theorem parseNumeral?_crlfFree {b : Bytes} {v : Int} (h : parseNumeral? b = some v) :
    ∀ x ∈ b, x ≠ 13 ∧ x ≠ 10 := by
  unfold parseNumeral? at h
  split at h
  · rename_i rest
    intro x hx
    rcases List.mem_cons.mp hx with rfl | hx
    · omega
    · rcases hdg : digitsVal? rest with _ | n
      · rw [hdg] at h; simp at h
      · have := digitsVal?_isSome_digits hdg x hx
        omega
  · rename_i rest
    intro x hx
    rcases List.mem_cons.mp hx with rfl | hx
    · omega
    · rcases hdg : digitsVal? rest with _ | n
      · rw [hdg] at h; simp at h
      · have := digitsVal?_isSome_digits hdg x hx
        omega
  · intro x hx
    rcases hdg : digitsVal? b with _ | n
    · rw [hdg] at h; simp at h
    · have := digitsVal?_isSome_digits hdg x hx
      omega

theorem i64Decode_overflow {body : Bytes} {v : Int} (rest : Bytes)
    (hnum : parseNumeral? body = some v) (hout : v < i64Min ∨ i64Max < v) :
    i64Decode (58 :: (body ++ 13 :: 10 :: rest)) = .err .ParseIntError rest := by
  have hnp : noPair (58 :: body) = true := by
    apply noPair_of_no13
    intro b hb
    rcases List.mem_cons.mp hb with hb | hb
    · omega
    · exact (parseNumeral?_crlfFree hnum b hb).1
  have he := @extractSimpleFrameData_ok1 58 body rest hnp
  rw [show ((58 :: body) ++ 13 :: 10 :: rest : Bytes) = 58 :: (body ++ 13 :: 10 :: rest) by
    simp] at he
  rw [i64Decode, he]
  show (match parseI64 (((58 :: (body ++ 13 :: 10 :: rest)).take (body.length + 1)).drop 1) with
    | some v => DecRes.ok v ((58 :: (body ++ 13 :: 10 :: rest)).drop (body.length + 1 + 2))
    | none => DecRes.err RespError.ParseIntError
        ((58 :: (body ++ 13 :: 10 :: rest)).drop (body.length + 1 + 2))) =
    DecRes.err RespError.ParseIntError rest
  have htake : (58 :: (body ++ 13 :: 10 :: rest)).take (body.length + 1) = 58 :: body := by
    rw [List.take_succ_cons, List.take_left]
  have hdrop : (58 :: (body ++ 13 :: 10 :: rest)).drop (body.length + 1 + 2) = rest := by
    rw [show (58 : Nat) :: (body ++ 13 :: 10 :: rest) = (58 :: body) ++ 13 :: 10 :: rest by simp,
      show body.length + 1 + 2 = (58 :: body).length + 2 by simp]
    exact drop_header
  rw [htake, hdrop]
  simp only [List.drop_succ_cons, List.drop_zero]
  have hnone : parseI64 body = none := by
    rw [parseI64, parseIntBounded]
    simp only [hnum]
    rw [if_neg (by rcases hout with h | h <;> simp [i64Min, i64Max] at h ⊢ <;> omega)]
  rw [hnone]

/-! # The claims -/

/-- C1 (amended): over the frame grammar without `Boolean` frames, every
strict prefix of an encoded frame decodes to `NotComplete` with the buffer
left byte-for-byte as it was, and the complete encoding decodes to the frame
with exactly those bytes consumed.  As stated over *every* frame the claim is
false: see the `Boolean`-prefix counterexample. -/
theorem decoder_prefix_atomicity_amended {f : RespFrame} (h : WFFrame false f) :
    (∀ p, p <+: encodeFrame f → p ≠ encodeFrame f →
        respFrameDecode p = .err .NotComplete p) ∧
    respFrameDecode (encodeFrame f) = .ok f [] :=
  ⟨fun p hp hne => decode_prefix_all h p hp hne _, respFrameDecode_encode h⟩

/-- C1 witness: the strict prefix `+O` of `encode(SimpleString "OK")` decodes
to `NotComplete` untouched, and the full encoding decodes back. -/
theorem decoder_prefix_atomicity_amended_witness :
    respFrameDecode [43, 79] = .err .NotComplete [43, 79] ∧
    respFrameDecode (encodeFrame (.SimpleString [79, 75])) =
      .ok (.SimpleString [79, 75]) [] :=
  have h : WFFrame false (.SimpleString [79, 75]) :=
    WFFrame.simpleString (by unfold crlfFree; decide)
  ⟨(decoder_prefix_atomicity_amended h).1 [43, 79] (by decide) (by decide),
   (decoder_prefix_atomicity_amended h).2⟩

/-- C1 counterexample: `#` (byte 35) is a strict prefix of the encoding of
`Boolean true`, but the decoder returns `InvalidFrameType`, not `NotComplete`
— `bool::decode` collapses every `extract_fixed_data` error, the
incomplete-input one included, into `InvalidFrameType`. -/
theorem decoder_prefix_atomicity_counterexample :
    [35] <+: encodeFrame (.Boolean true) ∧ [35] ≠ encodeFrame (.Boolean true) ∧
    respFrameDecode [35] = .err .InvalidFrameType [35] :=
  ⟨by decide, by decide, rfl⟩

/-- C2 (amended): over the grammar of frames the decoder can reproduce —
all variants except `Double`, with the null `BulkString`/`Array` payloads
represented by the dedicated null frames and bulk bodies free of CR-LF —
decoding an encoding yields exactly the frame with everything consumed, and
the three null encodings decode back to three pairwise distinct frames.  As
stated over all `BulkString` payloads the claim is false: see the
counterexample. -/
theorem codec_roundtrip_amended {f : RespFrame} (h : WFFrame true f) :
    respFrameDecode (encodeFrame f) = .ok f [] ∧
    respFrameDecode (encodeFrame .NullBulkString) = .ok .NullBulkString [] ∧
    respFrameDecode (encodeFrame .NullArray) = .ok .NullArray [] ∧
    respFrameDecode (encodeFrame .Null) = .ok .Null [] ∧
    RespFrame.NullBulkString ≠ RespFrame.NullArray ∧
    RespFrame.NullBulkString ≠ RespFrame.Null ∧
    RespFrame.NullArray ≠ RespFrame.Null :=
  ⟨respFrameDecode_encode h, rfl, rfl, rfl,
   fun hc => RespFrame.noConfusion hc, fun hc => RespFrame.noConfusion hc,
   fun hc => RespFrame.noConfusion hc⟩

/-- C2 witness: the round trip at the `Boolean true` frame, together with the
three distinct nulls. -/
theorem codec_roundtrip_amended_witness :
    respFrameDecode (encodeFrame (.Boolean true)) = .ok (.Boolean true) [] ∧
    respFrameDecode (encodeFrame .NullBulkString) = .ok .NullBulkString [] ∧
    respFrameDecode (encodeFrame .NullArray) = .ok .NullArray [] ∧
    respFrameDecode (encodeFrame .Null) = .ok .Null [] ∧
    RespFrame.NullBulkString ≠ RespFrame.NullArray ∧
    RespFrame.NullBulkString ≠ RespFrame.Null ∧
    RespFrame.NullArray ≠ RespFrame.Null :=
  codec_roundtrip_amended WFFrame.boolean

/-- C2 counterexample: the bulk body `a\r\nb` encodes to `$4\r\na\r\nb\r\n`,
whose decoding fails with `NotComplete` and a half-consumed buffer (the second
CR-LF is found *inside* the body); and the null `BulkString` frame does not
round-trip to itself but to the distinct `NullBulkString` frame. -/
theorem codec_roundtrip_counterexample :
    respFrameDecode (encodeFrame (.BulkString (some [97, 13, 10, 98]))) =
      .err .NotComplete [98, 13, 10] ∧
    respFrameDecode (encodeFrame (.BulkString none)) = .ok .NullBulkString [] ∧
    RespFrame.BulkString none ≠ RespFrame.NullBulkString :=
  ⟨rfl, rfl, fun hc => RespFrame.noConfusion hc⟩

/-- C3: the code violates the claim for `%` and `~`.  `RespMap::decode` and
`RespSet::decode` have no `len < 0` guard, and iterating `0..len` over the
negative `isize` cast to `usize`-like iteration runs zero times, so *any*
negative count decodes successfully as an empty Map / Set; `$` and `*` do
reject negative counts other than `-1` with `InvalidFrame` (the bulk-string
path only after consuming the header).  The spec says any negative other than
`-1` is an error for all four tags. -/
theorem negative_aggregate_count_bug :
    respFrameDecode [37, 45, 49, 13, 10] = .ok (.Map []) [] ∧
    respFrameDecode [37, 45, 50, 13, 10] = .ok (.Map []) [] ∧
    respFrameDecode [126, 45, 51, 13, 10] = .ok (.Set []) [] ∧
    respFrameDecode [36, 45, 50, 13, 10, 97, 97, 13, 10] = .err .InvalidFrame [] ∧
    respFrameDecode [42, 45, 50, 13, 10] = .err .InvalidFrame [42, 45, 50, 13, 10] :=
  ⟨rfl, rfl, rfl, rfl, rfl⟩

/-- C4 (amended): an Integer frame whose well-formed decimal body denotes a
value outside the signed 64-bit range decodes to the `ParseIntError` kind —
`i64::decode` surfaces `s.parse::<i64>()` overflow through `?` as
`RespError::ParseIntError`, not as `InvalidFrame` as the spec states. -/
theorem integer_overflow_error_kind_amended {body : Bytes} {v : Int} (rest : Bytes)
    (hnum : parseNumeral? body = some v) (hout : v < i64Min ∨ i64Max < v) :
    respFrameDecode (58 :: (body ++ 13 :: 10 :: rest)) = .err .ParseIntError rest ∧
    RespError.ParseIntError ≠ RespError.InvalidFrame := by
  refine ⟨?_, by decide⟩
  rw [respFrameDecode, show (58 :: (body ++ 13 :: 10 :: rest) : Bytes).length + 1 =
    (body.length + rest.length + 3) + 1 by simp; omega]
  rw [decodeF_succ_integer]
  simp only [i64Decode_overflow rest hnum hout]

/-- C4 witness: the body `+9223372036854775808` (one past `i64::MAX`). -/
theorem integer_overflow_error_kind_amended_witness :
    parseNumeral? (43 :: natToDec (2 ^ 63)) = some ((2 ^ 63 : Nat) : Int) ∧
    (((2 ^ 63 : Nat) : Int) < i64Min ∨ i64Max < ((2 ^ 63 : Nat) : Int)) ∧
    respFrameDecode (58 :: ((43 :: natToDec (2 ^ 63)) ++ 13 :: 10 :: [])) =
      .err .ParseIntError [] :=
  have h1 : parseNumeral? (43 :: natToDec (2 ^ 63)) = some ((2 ^ 63 : Nat) : Int) :=
    parseNumeral?_plus_natToDec (2 ^ 63)
  have h2 : (((2 ^ 63 : Nat) : Int) < i64Min ∨ i64Max < ((2 ^ 63 : Nat) : Int)) := by
    right; norm_num [i64Max]
  ⟨h1, h2, (integer_overflow_error_kind_amended [] h1 h2).1⟩

/-- C4 counterexample: decoding `:9223372036854775808\r\n` returns the
`ParseIntError` kind, which is not the `InvalidFrame` kind the claim names. -/
theorem integer_overflow_error_kind_counterexample :
    respFrameDecode (58 :: (natToDec (2 ^ 63) ++ [13, 10])) = .err .ParseIntError [] ∧
    RespError.ParseIntError ≠ RespError.InvalidFrame :=
  ⟨rfl, by decide⟩

/-- C5 (amended): for every representable (finite binary64) nonzero value,
the encoder picks the decimal form exactly on the spec's magnitude window
`10^-8 ≤ |x| ≤ 10^8`; the code's literal window bound `1e-8` is the rounding
of `10^-8` up to `6044629098073146/2^79`, and no representable value
separates the two bounds.  At `x = 0` the claim is false: the code's
`abs() < 1e-8` test sends zero to the scientific form. -/
theorem double_magnitude_window_amended {x : ℚ} (hx : isF64Value x) (hx0 : x ≠ 0) :
    f64EncodeForm x = .decimal ↔ specDoubleDecimalWindow x := by
  constructor
  · intro hd
    by_cases hc : |x| > f64Lit1e8 ∨ |x| < f64Lit1em8
    · rw [f64EncodeForm, if_pos hc] at hd
      exact absurd hd (by decide)
    · push_neg at hc
      obtain ⟨h1, h2⟩ := hc
      left
      refine ⟨le_trans ?_ h2, by simpa [f64Lit1e8] using h1⟩
      norm_num [f64Lit1em8]
  · intro hw
    rcases hw with ⟨h1, h2⟩ | hx0'
    · rw [f64EncodeForm, if_neg (by
        push_neg
        exact ⟨by simpa [f64Lit1e8] using h2, f64_gap hx h1⟩)]
    · exact absurd hx0' hx0

/-- C5 witness: the value `1` is representable, nonzero, and its encoder form
is decimal exactly as the window demands. -/
theorem double_magnitude_window_amended_witness :
    isF64Value 1 ∧ (1 : ℚ) ≠ 0 ∧
    (f64EncodeForm 1 = .decimal ↔ specDoubleDecimalWindow 1) :=
  have h1 : isF64Value 1 := ⟨1, 0, by norm_num, by norm_num, by norm_num⟩
  ⟨h1, one_ne_zero, double_magnitude_window_amended h1 one_ne_zero⟩

/-- C5 counterexample: `x = 0` lies in the spec's decimal window, but the
encoder's `abs() < 1e-8` test selects the scientific form (`,+0e0\r\n`). -/
theorem double_zero_scientific_counterexample :
    specDoubleDecimalWindow 0 ∧ f64EncodeForm 0 = .scientific :=
  ⟨Or.inr rfl, by rw [f64EncodeForm, if_pos (Or.inr (by norm_num [f64Lit1em8]))]⟩

/-- C6: the SADD reply is the Integer count of the listed members not already
in set `k` before the command (the per-member `sadd` results, 1 for newly
inserted and 0 for already present, summed), and re-executing the same SADD
immediately afterwards replies Integer 0. -/
theorem sadd_reply_counts_new_members (st : Backend) (key : Bytes) (ms : List Bytes)
    (hnd : ms.Nodup) :
    (sAddExecute st key ms).1 =
      .Integer ((ms.filter (fun m => decide (m ∉ innerOf st key))).length : Nat) ∧
    (sAddExecute (sAddExecute st key ms).2 key ms).1 = .Integer 0 := by
  obtain ⟨h1, h2⟩ := sAdd_foldl key ms st 0
  constructor
  · show RespFrame.Integer ((ms.foldl (fun (p : Int × Backend) m =>
        let r := backendSAdd p.2 key m
        (p.1 + r.1, r.2)) ((0 : Int), st)).1) = _
    rw [h1, sAddNewCount_nodup ms _ hnd]
    norm_num
  · obtain ⟨g1, g2⟩ := sAdd_foldl key ms (sAddExecute st key ms).2 0
    show RespFrame.Integer ((ms.foldl (fun (p : Int × Backend) m =>
        let r := backendSAdd p.2 key m
        (p.1 + r.1, r.2)) ((0 : Int), (sAddExecute st key ms).2)).1) = _
    rw [g1]
    have hz : sAddNewCount (innerOf (sAddExecute st key ms).2 key) ms = 0 := by
      apply sAddNewCount_eq_zero
      intro m hm
      have hfin : innerOf (sAddExecute st key ms).2 key =
          ms.foldl sAddInsert (innerOf st key) := h2
      rw [hfin]
      exact mem_foldl_sAddInsert ms _ m (Or.inr hm)
    rw [hz]
    norm_num

/-- C6 witness: `SADD s a b` on the empty backend replies Integer 2 and, run
again, Integer 0. -/
theorem sadd_reply_counts_new_members_witness :
    (sAddExecute backendNew [115] [[97], [98]]).1 = .Integer 2 ∧
    (sAddExecute (sAddExecute backendNew [115] [[97], [98]]).2 [115]
      [[97], [98]]).1 = .Integer 0 := by
  have h := sadd_reply_counts_new_members backendNew [115] [[97], [98]] (by decide)
  refine ⟨?_, h.2⟩
  rw [h.1]
  rfl

/-- C7: `HMGET k f_1 … f_n` replies with an Array whose i-th element is the
value of field `f_i` of hash `k`, or the unitary `Null` for a miss, in the
order the fields were given — i.e. the map of the per-field `hget` over the
field list, duplicates included. -/
theorem hmget_values_in_field_order (st : Backend) (key : Bytes) (fields : List Bytes) :
    hmGetExecute st key fields =
      .Array (some (fields.map (fun f => (backendHGet st key f).getD .Null))) := by
  have hloop : ∀ fs : List Bytes,
      hmGetLoop st key fs = fs.map (fun f => (backendHGet st key f).getD .Null) := by
    intro fs
    induction fs with
    | nil => rfl
    | cons f fs ih =>
        rw [hmGetLoop, List.map_cons, ih]
        cases backendHGet st key f <;> rfl
  rw [hmGetExecute, hloop fields]

/-- C8: every map the source can build (a `BTreeMap`, i.e. any sequence of
insertions into the empty map) holds its entries sorted by key in ascending
byte order, and the encoder emits the entries in exactly that order; encoding
the map built by inserting `b ↦ 1` then `a ↦ 2` places `+a` before `+b` on
the wire. -/
theorem map_encode_ascending_keys :
    (∀ ins : List (Bytes × RespFrame),
        List.Pairwise (fun a b => bytesLt a.1 b.1 = true) (mapFromList ins)) ∧
    encodeFrame (.Map (mapFromList [([98], .Integer 1), ([97], .Integer 2)])) =
      [37, 50, 13, 10] ++ ([43, 97, 13, 10] ++ [58, 43, 50, 13, 10]) ++
        ([43, 98, 13, 10] ++ [58, 43, 49, 13, 10]) :=
  ⟨fun ins => mapFromList_pairwise_from ins [] List.Pairwise.nil, rfl⟩

/-- C9: the three stores are disjoint — a write through one store changes no
read through another, on any keys. -/
theorem stores_disjoint (st : Backend) (k k' f m : Bytes) (v w : RespFrame) :
    backendGet (backendHSet st k f w) k' = backendGet st k' ∧
    backendGet ((backendSAdd st k m).2) k' = backendGet st k' ∧
    backendHGet (backendSet st k v) k' f = backendHGet st k' f ∧
    backendHGetAll (backendSet st k v) k' = backendHGetAll st k' ∧
    backendSIsMember (backendSet st k v) k' m = backendSIsMember st k' m ∧
    backendHGet ((backendSAdd st k m).2) k' f = backendHGet st k' f ∧
    backendHGetAll ((backendSAdd st k m).2) k' = backendHGetAll st k' ∧
    backendSIsMember (backendHSet st k f w) k' m = backendSIsMember st k' m := by
  refine ⟨rfl, ?_, rfl, rfl, rfl, ?_, ?_, rfl⟩
  all_goals
    by_cases h : m ∈ (assocGet st.hset k).getD [] <;>
      simp [backendSAdd, backendGet, backendHGet, backendHGetAll, h]

/-- C10: decoding an empty buffer yields `NotComplete` — never an `Invalid*`
error — so the connection codec answers `Ok(None)` ("wait for more input")
on a byte-less read. -/
theorem empty_buffer_waits :
    respFrameDecode [] = .err .NotComplete [] ∧
    respFrameCodecDecode [] = .ok (none, []) :=
  ⟨rfl, rfl⟩
